import Mathlib

/-! Blocktree: a shallow embedding of `blocktree/tree.go` and `blocktree/block_unminted.go`

The development models the branch-aware ledger of the repository:

* the transaction value types and the candidate block (`UnmintedBlock`),
* the admission pipeline `Mint` / `Graft` / `NewTree`,
* the per-branch resolver `findUnspentTxs` / `findSpendableOutputs`,
* the builder operations `AddTx` / `AddRewardTx`.

Conventions.

* Machine integers are natural numbers; `uint64` additions are reduced modulo `2^64`
  and `uint8` conversions modulo `2^8`, exactly where the Go code performs them.
* Go maps and the insertion-ordered transaction collection are association lists.
  The functions do not require, but the theorems state where they need it, that the
  keys of such a list are pairwise distinct (`keysNodup`), as they are in any Go map.
* The digest primitive of transactions, the sealer (`mine`) and the digest primitive of
  sealed blocks are external collaborators: they are the fields of `Primitives`, and the
  general theorems hold for all of them.
* `Graft` panics when `Mint` fails; the abort is the `Except.error` result of the model.
* The backward walk of the resolver need not terminate on an arbitrary store; it is
  modelled with a fuel argument and returns `none` when the fuel runs out.
-/

namespace Broccoli

/-! ## Data model -/

/-- Digest (`hash.Hash`): a fixed-width content hash, modelled as a natural number. -/
abbrev Hash := Nat

/-- Modelled from the spec: the reserved sentinel digest `hash.NilHash` (its declaration is in
the `hash` package, which is not among the sources); the zero value of the digest type. -/
def NilHash : Hash := 0

/-- Identity of a transaction party (`wallet.Address`, a `string` in `block_unminted.go`). -/
abbrev Address := String

/-- Width of the `uint64` value arithmetic. -/
def U64 : Nat := 2 ^ 64

/-- Width of the `uint8` output indices. -/
def U8 : Nat := 2 ^ 8

/-- Modelled from the spec: `TxOutput`, a recipient and a value (the type declaration is
missing from the sources; the code builds it positionally, recipient first). -/
structure TxOutput where
  Recipient : Address
  Value : Nat
  deriving DecidableEq, Repr

/-- Modelled from the spec: `TxInput`, a referenced transaction hash and an output index (the type
declaration is missing from the sources; the code reads the fields `ID` and `Index`). -/
structure TxInput where
  ID : Hash
  Index : Nat
  deriving DecidableEq, Repr

/-- Modelled from the spec: `Transaction`, ordered inputs and ordered outputs (the type
declaration is missing from the sources; the code uses the fields `Inputs`, `Outputs`). -/
structure Transaction where
  Inputs : List TxInput
  Outputs : List TxOutput
  deriving DecidableEq, Repr

/-- Modelled from the spec: `Transaction.IsFromCoinbase` (missing from the sources): a
transaction is a coinbase transaction iff it has exactly one input, whose referenced hash is
the sentinel and whose output index is 0. -/
def Transaction.IsFromCoinbase (tx : Transaction) : Bool :=
  match tx.Inputs with
  | [i] => decide (i.ID = NilHash) && decide (i.Index = 0)
  | _ => false

/-- Modelled from the spec: `TxOutput.CanBeUnlocked` (missing from the sources): the output
is owned by `address`, i.e. its recipient equals `address`. -/
def TxOutput.CanBeUnlocked (out : TxOutput) (address : Address) : Bool :=
  decide (out.Recipient = address)

/-! ## Finite maps as association lists -/

/-- Lookup `m[k]`: the value of the first entry with key `k`. -/
def mapGet {κ β : Type} [DecidableEq κ] : List (κ × β) → κ → Option β
  | [], _ => none
  | (k', v) :: rest, k => if k' = k then some v else mapGet rest k

/-- Assignment `m[k] = v`: replaces the value of an existing key in place, and appends a new
entry otherwise (insertion order is kept). -/
def mapSet {κ β : Type} [DecidableEq κ] : List (κ × β) → κ → β → List (κ × β)
  | [], k, v => [(k, v)]
  | (k', v') :: rest, k, v =>
    if k' = k then (k, v) :: rest else (k', v') :: mapSet rest k v

/-- The keys of a map, in order. -/
def mapKeys {κ β : Type} (m : List (κ × β)) : List κ := m.map Prod.fst

/-- Well-formedness of an association list that stands for a map: no key occurs twice. -/
def keysNodup {κ β : Type} (m : List (κ × β)) : Prop := (mapKeys m).Nodup

instance {κ β : Type} [DecidableEq κ] (m : List (κ × β)) : Decidable (keysNodup m) := by
  unfold keysNodup; infer_instance

/-- The transaction collection of a block: sender key ↦ transaction, in insertion order. -/
abbrev TxMap := List (String × Transaction)

/-- Candidate block (`UnmintedBlock`). -/
structure UnmintedBlock where
  Transactions : TxMap
  Previous : Hash
  deriving DecidableEq, Repr

/-- Modelled from the spec: the sealed block `MintedBlock` (its declaration is missing from
the sources); the fields are those `Mint` fills in. The back pointer `tree` is not a value
of the block and is left out. -/
structure MintedBlock where
  transactions : TxMap
  previous : Hash
  nonce : Nat
  deriving DecidableEq, Repr

/-- Modelled from the spec: network parameters, a reward amount and a difficulty (the
declaration of `Network` is missing from the sources; the code reads `Reward`). -/
structure Network where
  Reward : Nat
  Difficulty : Nat
  deriving DecidableEq, Repr

/-- The ledger (`Blocktree`): the block store and the network parameters. -/
structure Blocktree where
  blocks : List (Hash × MintedBlock)
  network : Network
  deriving DecidableEq, Repr

/-- Modelled from the spec: the external collaborators, none of which is among the sources.
`txHash` is the content hash of a transaction (`Transaction.Hash`), `mine` is the sealer
(`MintedBlock.mine`), a proof-of-work search that yields the nonce of the block and leaves its
other fields alone, and `blockHash` is the digest of a sealed block (`MintedBlock.Hash`). -/
structure Primitives where
  txHash : Transaction → Hash
  mine : Network → MintedBlock → Nat
  blockHash : MintedBlock → Hash

/-! ## Candidate block builder: `NewBlock`, `AddRewardTx` -/

/-- `NewBlock(previous)`. -/
def NewBlock (previous : Hash) : UnmintedBlock := ⟨[], previous⟩

/-- The reward transaction built by `AddRewardTx`. -/
def rewardTx (tree : Blocktree) (miner : Address) : Transaction :=
  ⟨[⟨NilHash, 0⟩], [⟨miner, tree.network.Reward⟩]⟩

/-- `(b *UnmintedBlock) AddRewardTx(tree, to)`. -/
def AddRewardTx (b : UnmintedBlock) (tree : Blocktree) (miner : Address) : UnmintedBlock :=
  { b with Transactions := mapSet b.Transactions "coinbase" (rewardTx tree miner) }

/-! ## Ledger: `Block`, `Mint`, `Graft`, `NewTree` -/

/-- `(bt *Blocktree) Block(hash)`: the stored block, or `none` for `nil`. -/
def Block (bt : Blocktree) (h : Hash) : Option MintedBlock := mapGet bt.blocks h

/-- The error of a second root. -/
def errInvalidRoot : String := "multiple root blocks are not allowed"

/-- The error of an unknown parent. -/
def errUnknownParent : String := "previous block not found"

/-- The error of a caller-supplied coinbase transaction. -/
def errForgedCoinbase : String := "illegal coinbase transaction found"

/-- The error of `AddTx`. -/
def errInsufficientFunds : String := "not enough funds"

/-- The transaction check of `Mint`: some key of the candidate maps to a coinbase
transaction (the loop over `Keys()` that tests `Get(t)` with `IsFromCoinbase`). -/
def hasCoinbase (txs : TxMap) : Bool :=
  (mapKeys txs).any (fun t =>
    match mapGet txs t with
    | some val => val.IsFromCoinbase
    | none => false)

/-- The second half of `Mint`: the check of the transactions, the injection of the reward
transaction and the construction of the unsealed block. -/
def mintTxs (bt : Blocktree) (ub : UnmintedBlock) (miner : Address) : Except String MintedBlock :=
  if hasCoinbase ub.Transactions then
    .error errForgedCoinbase
  else
    .ok { transactions := (AddRewardTx ub bt miner).Transactions
          previous := (AddRewardTx ub bt miner).Previous
          nonce := 0 }

/-- `(bt *Blocktree) Mint(ub, miner)`. The reward transaction is written into the map the
candidate shares with the caller; the returned block carries that map. -/
def Mint (bt : Blocktree) (ub : UnmintedBlock) (miner : Address) : Except String MintedBlock :=
  if ub.Previous = NilHash then
    if bt.blocks.length ≠ 0 then
      .error errInvalidRoot
    else
      mintTxs bt ub miner
  else if Block bt ub.Previous = none then
    .error errUnknownParent
  else
    mintTxs bt ub miner

/-- The sealing step `b.mine(bt.network)`: the block with the nonce the sealer found. -/
def sealBlock (P : Primitives) (n : Network) (b : MintedBlock) : MintedBlock :=
  { b with nonce := P.mine n b }

/-- `(bt *Blocktree) Graft(ub, miner)`: the new ledger and the digest of the new block; the
panic on a `Mint` error is the `error` result. -/
def Graft (P : Primitives) (bt : Blocktree) (ub : UnmintedBlock) (miner : Address) :
    Except String (Blocktree × Hash) :=
  match Mint bt ub miner with
  | .error e => .error e
  | .ok b =>
    let b' := sealBlock P bt.network b
    let h := P.blockHash b'
    .ok ({ bt with blocks := mapSet bt.blocks h b' }, h)

/-- `NewTree(n, miner)`. -/
def NewTree (P : Primitives) (n : Network) (miner : Address) : Except String (Blocktree × Hash) :=
  Graft P ⟨[], n⟩ (NewBlock NilHash) miner

/-! ## Resolver: `findUnspentTxs`, `findSpendableOutputs` -/

/-- The map `spentTxIDs` of the resolver, and the selection map `unspentOuts`:
digest ↦ list of `uint8` output indices. A missing key reads as the `nil` slice. -/
abbrev IndexMap := List (Hash × List Nat)

/-- Read `m[h]` of an index map: the `nil` (empty) slice for a missing key. -/
def indexGet (m : IndexMap) (h : Hash) : List Nat := (mapGet m h).getD []

/-- The inner loop over `spentTxIDs[txHash]`: some recorded index equals `uint8(i)`. -/
def isShadowed (spent : List Nat) (i : Nat) : Bool :=
  spent.any (fun spentOut => decide (spentOut = i % U8))

/-- The loop labelled `Outputs` of `findUnspentTxs` over the outputs of `tx`, from index `i`:
an output whose index is shadowed is skipped, an output owned by `address` appends `tx`. -/
def scanOutputs (address : Address) (tx : Transaction) (spent : List Nat) :
    Nat → List TxOutput → List Transaction → List Transaction
  | _, [], unspentTxs => unspentTxs
  | i, out :: rest, unspentTxs =>
    if isShadowed spent i then
      scanOutputs address tx spent (i + 1) rest unspentTxs
    else if out.CanBeUnlocked address then
      scanOutputs address tx spent (i + 1) rest (unspentTxs ++ [tx])
    else
      scanOutputs address tx spent (i + 1) rest unspentTxs

/-- The loop over the inputs of a non-coinbase transaction:
`spentTxIDs[txHash] = append(spentTxIDs[inTxID], in.Index)`. Slices are values here; the
storage two Go slices may share after `append` is not modelled. -/
def recordInputs (txHash : Hash) : List TxInput → IndexMap → IndexMap
  | [], spentTxIDs => spentTxIDs
  | inp :: rest, spentTxIDs =>
    recordInputs txHash rest (mapSet spentTxIDs txHash (indexGet spentTxIDs inp.ID ++ [inp.Index]))

/-- The body of the loop over the transactions of one block. -/
def scanTx (P : Primitives) (address : Address) (tx : Transaction)
    (st : List Transaction × IndexMap) : List Transaction × IndexMap :=
  let txHash := P.txHash tx
  let unspentTxs := scanOutputs address tx (indexGet st.2 txHash) 0 tx.Outputs st.1
  if tx.IsFromCoinbase then (unspentTxs, st.2)
  else (unspentTxs, recordInputs txHash tx.Inputs st.2)

/-- The loop over the transactions of one block, front to back. -/
def scanTxs (P : Primitives) (address : Address) :
    TxMap → List Transaction × IndexMap → List Transaction × IndexMap
  | [], st => st
  | (_, tx) :: rest, st => scanTxs P address rest (scanTx P address tx st)

/-- The outer loop of `findUnspentTxs`, `for b := branch; b != NilHash; b = blocks[b].previous`.
The result is `none` when the fuel runs out before the sentinel is reached, and when the walk
reads a digest that is not a key of the store (the zero block has no transaction collection
to traverse). -/
def walk (P : Primitives) (bt : Blocktree) (address : Address) :
    Nat → Hash → List Transaction × IndexMap → Option (List Transaction × IndexMap)
  | 0, b, st => if b = NilHash then some st else none
  | fuel + 1, b, st =>
    if b = NilHash then some st
    else
      match Block bt b with
      | none => none
      | some blk => walk P bt address fuel blk.previous (scanTxs P address blk.transactions st)

/-- `(bt *Blocktree) findUnspentTxs(address, branch)`. -/
def findUnspentTxs (P : Primitives) (fuel : Nat) (bt : Blocktree) (address : Address)
    (branch : Hash) : Option (List Transaction) :=
  (walk P bt address fuel branch ([], [])).map Prod.fst

/-- State of the loop labelled `Work`: the accumulated total, the selection, and whether
`break Work` was executed. -/
structure WorkState where
  accumulated : Nat
  unspentOuts : IndexMap
  done : Bool
  deriving DecidableEq, Repr

/-- The inner loop of `findSpendableOutputs` over the outputs of one transaction with hash
`h`, from index `i`. -/
def selectOutputs (address : Address) (amount : Nat) (h : Hash) :
    Nat → List TxOutput → WorkState → WorkState
  | _, [], st => st
  | i, out :: rest, st =>
    if out.CanBeUnlocked address ∧ st.accumulated < amount then
      let accumulated := (st.accumulated + out.Value) % U64
      let unspentOuts := mapSet st.unspentOuts h (indexGet st.unspentOuts h ++ [i % U8])
      if accumulated ≥ amount then
        ⟨accumulated, unspentOuts, true⟩
      else
        selectOutputs address amount h (i + 1) rest ⟨accumulated, unspentOuts, false⟩
    else
      selectOutputs address amount h (i + 1) rest st

/-- The loop labelled `Work` over the unspent transactions. -/
def selectTxs (P : Primitives) (address : Address) (amount : Nat) :
    List Transaction → WorkState → WorkState
  | [], st => st
  | tx :: rest, st =>
    if st.done then st
    else selectTxs P address amount rest
      (selectOutputs address amount (P.txHash tx) 0 tx.Outputs st)

/-- `(tree *Blocktree) findSpendableOutputs(address, amount, branch)`: the accumulated total
and the selection. -/
def findSpendableOutputs (P : Primitives) (fuel : Nat) (tree : Blocktree) (address : Address)
    (amount : Nat) (branch : Hash) : Option (Nat × IndexMap) :=
  match findUnspentTxs P fuel tree address branch with
  | none => none
  | some unspentTxs =>
    let st := selectTxs P address amount unspentTxs ⟨0, [], false⟩
    some (st.accumulated, st.unspentOuts)

/-! ## Candidate block builder: `AddTx` -/

/-- The loop `amount += r.Value` over the requested outputs, in `uint64`. -/
def sumValues : List TxOutput → Nat → Nat
  | [], amount => amount
  | r :: rest, amount => sumValues rest ((amount + r.Value) % U64)

/-- The loop that turns the selection into inputs, one `TxInput` per selected index. The Go
map is ranged over in an unspecified order; the model takes the order of first insertion. -/
def makeInputs (validOutputs : IndexMap) : List TxInput :=
  validOutputs.flatMap (fun e => e.2.map (fun out => (⟨e.1, out⟩ : TxInput)))

/-- `(b *UnmintedBlock) AddTx(tree, from, outputs...)`: the candidate after the call and the
returned error (`none` for `nil`). The outer `none` is a resolver walk that does not return. -/
def AddTx (P : Primitives) (fuel : Nat) (b : UnmintedBlock) (tree : Blocktree) (sender : Address)
    (outputs : List TxOutput) : Option (UnmintedBlock × Option String) :=
  let amount := sumValues outputs 0
  match findSpendableOutputs P fuel tree sender amount b.Previous with
  | none => none
  | some (acc, validOutputs) =>
    if acc < amount then
      some (b, some errInsufficientFunds)
    else
      let inputs := makeInputs validOutputs
      let outputs' := if acc > amount then outputs ++ [⟨sender, acc - amount⟩] else outputs
      let tx : Transaction := ⟨inputs, outputs'⟩
      some ({ b with Transactions := mapSet b.Transactions sender tx }, none)

/-! ## Notions used to state the properties -/

/-- The branch of `tip`: the digests the backward walk visits, tip first, or `none` when the
walk does not reach the sentinel within the fuel or leaves the store. -/
def branch (bt : Blocktree) : Nat → Hash → Option (List Hash)
  | 0, b => if b = NilHash then some [] else none
  | fuel + 1, b =>
    if b = NilHash then some []
    else
      match Block bt b with
      | none => none
      | some blk => (branch bt fuel blk.previous).map (fun rest => b :: rest)

/-- The transactions stored on a branch, tip first, front to back inside a block. -/
def branchTxs (bt : Blocktree) (path : List Hash) : List Transaction :=
  path.flatMap (fun d =>
    match Block bt d with
    | none => []
    | some blk => blk.transactions.map Prod.snd)

/-- The pair `(h, i)` is referenced as an input by a non-coinbase transaction of `txs`. -/
def isReferenced (txs : List Transaction) (h : Hash) (i : Nat) : Bool :=
  txs.any (fun tx => !tx.IsFromCoinbase && tx.Inputs.any (fun inp => decide (inp.ID = h ∧ inp.Index = i)))

/-- The value of the outputs of one transaction, from index `i`, that are owned by `address`
and not referenced by a non-coinbase transaction of `txs`. -/
def unspentValueOf (txs : List Transaction) (address : Address) (h : Hash) :
    Nat → List TxOutput → Nat
  | _, [] => 0
  | i, out :: rest =>
    (if out.Recipient = address ∧ isReferenced txs h i = false then out.Value else 0)
      + unspentValueOf txs address h (i + 1) rest

/-- The true unspent value of `address` on a branch: the sum of the values of the outputs owned
by `address` in the transactions of the branch that no non-coinbase transaction of the branch
references as an input. -/
def trueUnspent (P : Primitives) (bt : Blocktree) (address : Address) (path : List Hash) : Nat :=
  ((branchTxs bt path).map (fun tx =>
    unspentValueOf (branchTxs bt path) address (P.txHash tx) 0 tx.Outputs)).sum

/-- The store is closed under `previous`: the parent of every stored block is the sentinel
or is stored. Every store built by `Graft` from the empty store is closed. -/
def Closed (bt : Blocktree) : Prop :=
  ∀ d blk, Block bt d = some blk → blk.previous = NilHash ∨ (Block bt blk.previous).isSome

/-- The mathematical sum of the requested values. -/
def totalValue (outputs : List TxOutput) : Nat := (outputs.map (fun r => r.Value)).sum

/-! ## A concrete ledger

A two-block ledger built through the interface: the root mined by `A` with reward 10, then a
block mined by `M` in which `A` pays 4 to `B`. The digest primitives are simple arithmetic
encodings and the sealer returns the nonce 0. -/

/-- A numeric code of an identity. -/
def demoCode (a : Address) : Nat := a.data.foldl (fun n c => 256 * n + c.toNat) 0

/-- A content hash of transactions, never the sentinel. -/
def demoTxHash (tx : Transaction) : Hash :=
  1 + 1000 * tx.Inputs.foldl (fun n i => 7 * n + i.ID + i.Index + 1) 0
    + tx.Outputs.foldl (fun n o => 10 * n + o.Value + demoCode o.Recipient) 0

/-- A digest of sealed blocks, never the sentinel. -/
def demoBlockHash (b : MintedBlock) : Hash :=
  1 + b.previous + 1000 * b.transactions.length + b.nonce

/-- The primitives of the concrete ledger. -/
def demo : Primitives := ⟨demoTxHash, fun _ _ => 0, demoBlockHash⟩

/-- Network parameters with reward 10. -/
def demoNet : Network := ⟨10, 0⟩

/-- The coinbase transaction of the root: 10 to `A`. -/
def demoCoinbaseA : Transaction := ⟨[⟨NilHash, 0⟩], [⟨"A", 10⟩]⟩

/-- The root block. -/
def demoRootBlock : MintedBlock := ⟨[("coinbase", demoCoinbaseA)], NilHash, 0⟩

/-- The ledger after `NewTree(demoNet, "A")`; the root digest is 1001. -/
def demoLedger0 : Blocktree := ⟨[(1001, demoRootBlock)], demoNet⟩

/-- The transaction `AddTx` builds for `A` paying 4 to `B`: it spends output 0 of the root
coinbase transaction (hash 1076) and returns 6 to `A`. -/
def demoSpend : Transaction := ⟨[⟨1076, 0⟩], [⟨"B", 4⟩, ⟨"A", 6⟩]⟩

/-- The candidate after `AddTx`. -/
def demoCandidate : UnmintedBlock := ⟨[("A", demoSpend)], 1001⟩

/-- The second block, mined by `M`. -/
def demoTipBlock : MintedBlock :=
  ⟨[("A", demoSpend), ("coinbase", ⟨[⟨NilHash, 0⟩], [⟨"M", 10⟩]⟩)], 1001, 0⟩

/-- The ledger after the second block is grafted; its digest is 3002. -/
def demoLedger1 : Blocktree := ⟨[(1001, demoRootBlock), (3002, demoTipBlock)], demoNet⟩

/-- A caller-supplied transaction with the single input (sentinel, 0). -/
def demoForged : Transaction := ⟨[⟨NilHash, 0⟩], [⟨"X", 1000⟩]⟩

/-- A root candidate that carries the forged transaction. -/
def demoForgedRoot : UnmintedBlock := ⟨[("X", demoForged)], NilHash⟩

/-! ## The outputs that inputs refer to -/

/-- The output the pair `(h, i)` identifies among `txs`: output `i` of the first transaction
whose hash is `h`. -/
def outputAt (P : Primitives) (txs : List Transaction) (h : Hash) (i : Nat) : Option TxOutput :=
  match txs.find? (fun tx => decide (P.txHash tx = h)) with
  | none => none
  | some tx => tx.Outputs[i]?

/-- The value an input resolves to: the value of the output it references, 0 when it
references no output of `txs`. -/
def inputValue (P : Primitives) (txs : List Transaction) (inp : TxInput) : Nat :=
  match outputAt P txs inp.ID inp.Index with
  | none => 0
  | some out => out.Value

/-- The sum of the resolved values of the inputs, as a natural number. -/
def inputsValue (P : Primitives) (txs : List Transaction) (inputs : List TxInput) : Nat :=
  (inputs.map (inputValue P txs)).sum

/-- Some transaction of `txs` has hash `h` and its output at index `i` has recipient
`address`. -/
def ownsOutputAt (P : Primitives) (txs : List Transaction) (address : Address) (h : Hash)
    (i : Nat) : Bool :=
  txs.any (fun tx => decide (P.txHash tx = h) &&
    match tx.Outputs[i]? with
    | none => false
    | some out => decide (out.Recipient = address))

/-- The pairs `(h, i)` of a selection, in order. -/
def selectionPairs (sel : IndexMap) : List (Hash × Nat) :=
  sel.flatMap (fun e => e.2.map (fun i => (e.1, i)))

/-! ## Further concrete ledgers -/

/-- Two requested outputs whose values sum to `2^64`. -/
def demoOverflowOutputs : List TxOutput := [⟨"B", 2 ^ 64 - 1⟩, ⟨"C", 1⟩]

/-- The transaction `A` builds when it pays 4 to itself: the change goes to `A` as well. -/
def demoSelfPay : Transaction := ⟨[⟨1076, 0⟩], [⟨"A", 4⟩, ⟨"A", 6⟩]⟩

/-- The block that holds the self payment, mined by `M`. -/
def demoSelfPayBlock : MintedBlock :=
  ⟨[("A", demoSelfPay), ("coinbase", ⟨[⟨NilHash, 0⟩], [⟨"M", 10⟩]⟩)], 1001, 0⟩

/-- The ledger after the block with the self payment is grafted; its digest is 3002. -/
def demoLedgerSelf : Blocktree := ⟨[(1001, demoRootBlock), (3002, demoSelfPayBlock)], demoNet⟩

/-- The requested outputs of a payment with 257 outputs: 256 outputs of value 0 to `B`, then
one output of value 10 to `A`. -/
def demoWideOutputs : List TxOutput := List.replicate 256 ⟨"B", 0⟩ ++ [⟨"A", 10⟩]

/-- The transaction `A` builds for the 257 outputs. -/
def demoWide : Transaction := ⟨[⟨1076, 0⟩], demoWideOutputs⟩

/-- The block that holds the transaction with 257 outputs, mined by `M`. -/
def demoWideBlock : MintedBlock :=
  ⟨[("A", demoWide), ("coinbase", ⟨[⟨NilHash, 0⟩], [⟨"M", 10⟩]⟩)], 1001, 0⟩

/-- The ledger after the block with 257 outputs is grafted; its digest is 3002. -/
def demoLedgerWide : Blocktree := ⟨[(1001, demoRootBlock), (3002, demoWideBlock)], demoNet⟩

/-- The coinbase transaction of a root mined by the identity "coinbase". -/
def demoCoinbaseC : Transaction := ⟨[⟨NilHash, 0⟩], [⟨"coinbase", 10⟩]⟩

/-- The ledger after `NewTree(demoNet, "coinbase")`; the root digest is 1001. -/
def demoLedgerC : Blocktree := ⟨[(1001, ⟨[("coinbase", demoCoinbaseC)], NilHash, 0⟩)], demoNet⟩

/-- The transaction the identity "coinbase" builds when it pays 4 to `B` out of its reward
(the root coinbase transaction has hash 7165061454987622232). -/
def demoSpendC : Transaction :=
  ⟨[⟨7165061454987622232, 0⟩], [⟨"B", 4⟩, ⟨"coinbase", 6⟩]⟩

/-- The candidate after `AddTx` for the sender "coinbase". -/
def demoCandidateC : UnmintedBlock := ⟨[("coinbase", demoSpendC)], 1001⟩

/-! ## Reachable ledgers -/

/-- The ledgers reachable from `NewTree` by successful `Graft` calls whose sealed digest is
not already a key of the store. -/
inductive Reachable (P : Primitives) : Blocktree → Prop
  | newTree (n : Network) (miner : Address) (bt : Blocktree) (root : Hash) :
      NewTree P n miner = .ok (bt, root) → Reachable P bt
  | graft (bt bt' : Blocktree) (ub : UnmintedBlock) (miner : Address) (h : Hash) :
      Reachable P bt → Graft P bt ub miner = .ok (bt', h) → Block bt h = none →
      Reachable P bt'

/-- The number of stored blocks whose previous digest is the sentinel. -/
def rootCount (bt : Blocktree) : Nat :=
  (bt.blocks.filter (fun e => decide (e.2.previous = NilHash))).length

/-- The position of a digest among the keys of the store, in insertion order. -/
def rank (bt : Blocktree) (d : Hash) : Nat := (mapKeys bt.blocks).indexOf d

/-- Every stored block that is not a root has a stored parent that was inserted earlier. -/
def Ranked (bt : Blocktree) : Prop :=
  ∀ d blk, Block bt d = some blk →
    blk.previous = NilHash ∨
      ((Block bt blk.previous).isSome = true ∧ rank bt blk.previous < rank bt d)

/-! ## Lemmas about association lists -/

theorem mapGet_mem {κ β : Type} [DecidableEq κ] (m : List (κ × β)) (k : κ) (v : β)
    (h : mapGet m k = some v) : (k, v) ∈ m := by
  induction m with
  | nil => simp [mapGet] at h
  | cons e rest ih =>
    obtain ⟨k', v'⟩ := e
    by_cases hk : k' = k
    · simp [mapGet, hk] at h
      simp [hk, h]
    · simp [mapGet, hk] at h
      exact List.mem_cons_of_mem _ (ih h)

theorem mapGet_of_mem {κ β : Type} [DecidableEq κ] (m : List (κ × β)) (k : κ) (v : β)
    (hnd : keysNodup m) (h : (k, v) ∈ m) : mapGet m k = some v := by
  induction m with
  | nil => simp at h
  | cons e rest ih =>
    obtain ⟨k', v'⟩ := e
    simp only [keysNodup, mapKeys, List.map_cons, List.nodup_cons] at hnd
    rcases List.mem_cons.mp h with heq | hmem
    · cases heq
      simp [mapGet]
    · have hne : k' ≠ k := by
        intro hk
        apply hnd.1
        rw [hk]
        exact List.mem_map_of_mem Prod.fst hmem
      simp only [mapGet, hne, if_false]
      exact ih hnd.2 hmem

theorem mapGet_mapSet_same {κ β : Type} [DecidableEq κ] (m : List (κ × β)) (k : κ) (v : β) :
    mapGet (mapSet m k v) k = some v := by
  induction m with
  | nil => simp [mapSet, mapGet]
  | cons e rest ih =>
    obtain ⟨k', v'⟩ := e
    by_cases hk : k' = k
    · simp [mapSet, mapGet, hk]
    · simp [mapSet, mapGet, hk, ih]

theorem mapGet_mapSet_other {κ β : Type} [DecidableEq κ] (m : List (κ × β)) (k k' : κ) (v : β)
    (hne : k ≠ k') : mapGet (mapSet m k v) k' = mapGet m k' := by
  induction m with
  | nil => simp [mapSet, mapGet, hne]
  | cons e rest ih =>
    obtain ⟨k₀, v₀⟩ := e
    by_cases hk : k₀ = k
    · subst hk
      simp [mapSet, mapGet, hne]
    · by_cases hk' : k₀ = k'
      · subst hk'
        simp [mapSet, mapGet, hk]
      · simp [mapSet, mapGet, hk, hk', ih]

theorem mapSet_ne_nil {κ β : Type} [DecidableEq κ] (m : List (κ × β)) (k : κ) (v : β) :
    mapSet m k v ≠ [] := by
  cases m with
  | nil => simp [mapSet]
  | cons e rest =>
    obtain ⟨k', v'⟩ := e
    by_cases hk : k' = k <;> simp [mapSet, hk]

/-! ## Lemmas about `Mint` -/

theorem hasCoinbase_false_of_forall (txs : TxMap)
    (h : ∀ e ∈ txs, e.2.IsFromCoinbase = false) : hasCoinbase txs = false := by
  unfold hasCoinbase
  rw [List.any_eq_false]
  intro k _
  cases hg : mapGet txs k with
  | none => simp
  | some val =>
    have := h _ (mapGet_mem txs k val hg)
    simp [this]

theorem hasCoinbase_true_of_mem (txs : TxMap) (hnd : keysNodup txs) (e : String × Transaction)
    (he : e ∈ txs) (hc : e.2.IsFromCoinbase = true) : hasCoinbase txs = true := by
  unfold hasCoinbase
  rw [List.any_eq_true]
  refine ⟨e.1, List.mem_map_of_mem Prod.fst he, ?_⟩
  have := mapGet_of_mem txs e.1 e.2 hnd he
  simp [this, hc]

theorem forall_of_hasCoinbase_false (txs : TxMap) (hnd : keysNodup txs)
    (h : hasCoinbase txs = false) : ∀ e ∈ txs, e.2.IsFromCoinbase = false := by
  intro e he
  cases hc : e.2.IsFromCoinbase with
  | false => rfl
  | true =>
    have := hasCoinbase_true_of_mem txs hnd e he hc
    rw [h] at this
    cases this

theorem isFromCoinbase_of_inputs (tx : Transaction) (h : tx.Inputs = [⟨NilHash, 0⟩]) :
    tx.IsFromCoinbase = true := by
  simp [Transaction.IsFromCoinbase, h]

theorem rewardTx_isFromCoinbase (bt : Blocktree) (miner : Address) :
    (rewardTx bt miner).IsFromCoinbase = true := by
  simp [Transaction.IsFromCoinbase, rewardTx]

theorem filter_mapSet_coinbase (txs : TxMap) (r : Transaction)
    (hall : ∀ e ∈ txs, e.2.IsFromCoinbase = false) (hr : r.IsFromCoinbase = true) :
    (mapSet txs "coinbase" r).filter (fun e => e.2.IsFromCoinbase) = [("coinbase", r)] := by
  induction txs with
  | nil => simp [mapSet, hr]
  | cons e rest ih =>
    obtain ⟨k', v'⟩ := e
    have hv : v'.IsFromCoinbase = false := hall (k', v') (List.mem_cons_self _ _)
    have hrest : ∀ e ∈ rest, e.2.IsFromCoinbase = false :=
      fun e he => hall e (List.mem_cons_of_mem _ he)
    by_cases hk : k' = "coinbase"
    · simp only [mapSet, hk, if_true]
      rw [List.filter_cons_of_pos (by simpa using hr)]
      congr 1
      rw [List.filter_eq_nil_iff]
      intro e he
      simp [hrest e he]
    · simp only [mapSet, hk, if_false]
      rw [List.filter_cons_of_neg (by simp [hv])]
      exact ih hrest

theorem mint_eq_mintTxs_or (bt : Blocktree) (ub : UnmintedBlock) (miner : Address) :
    Mint bt ub miner = .error errInvalidRoot ∧ ub.Previous = NilHash ∧ bt.blocks ≠ [] ∨
    Mint bt ub miner = .error errUnknownParent ∧ ub.Previous ≠ NilHash ∧ Block bt ub.Previous = none ∨
    Mint bt ub miner = mintTxs bt ub miner ∧
      (ub.Previous = NilHash ∧ bt.blocks = [] ∨
        ub.Previous ≠ NilHash ∧ (Block bt ub.Previous).isSome = true) := by
  unfold Mint
  by_cases hp : ub.Previous = NilHash
  · by_cases hl : bt.blocks.length ≠ 0
    · left
      rw [if_pos hp, if_pos hl]
      refine ⟨rfl, hp, ?_⟩
      intro h
      simp [h] at hl
    · right; right
      rw [if_pos hp, if_neg hl]
      refine ⟨rfl, Or.inl ⟨hp, ?_⟩⟩
      simpa using hl
  · by_cases hb : Block bt ub.Previous = none
    · right; left
      rw [if_neg hp, if_pos hb]
      exact ⟨rfl, hp, hb⟩
    · right; right
      rw [if_neg hp, if_neg hb]
      refine ⟨rfl, Or.inr ⟨hp, ?_⟩⟩
      cases h : Block bt ub.Previous with
      | none => exact absurd h hb
      | some _ => rfl

theorem mintTxs_ne_unknownParent (bt : Blocktree) (ub : UnmintedBlock) (miner : Address) :
    mintTxs bt ub miner ≠ .error errUnknownParent := by
  unfold mintTxs
  split
  · intro h
    injection h with h
    exact absurd h (by decide)
  · intro h
    cases h

theorem mintTxs_ok_iff (bt : Blocktree) (ub : UnmintedBlock) (miner : Address) (b : MintedBlock) :
    mintTxs bt ub miner = .ok b ↔
      hasCoinbase ub.Transactions = false ∧
      b = ⟨mapSet ub.Transactions "coinbase" (rewardTx bt miner), ub.Previous, 0⟩ := by
  unfold mintTxs AddRewardTx
  cases hc : hasCoinbase ub.Transactions with
  | true => simp
  | false =>
    simp only [Bool.false_eq_true, if_false, true_and]
    constructor
    · intro h
      injection h with h
      exact h.symm
    · intro h
      rw [h]

theorem mint_ok_mintTxs (bt : Blocktree) (ub : UnmintedBlock) (miner : Address) (b : MintedBlock)
    (h : Mint bt ub miner = .ok b) : mintTxs bt ub miner = .ok b := by
  rcases mint_eq_mintTxs_or bt ub miner with h1 | h1 | h1
  · rw [h1.1] at h; cases h
  · rw [h1.1] at h; cases h
  · rw [← h1.1]; exact h

/-- The block `Graft` stores for the unsealed block `b`. -/
theorem graft_of_mint (P : Primitives) (bt : Blocktree) (ub : UnmintedBlock) (miner : Address)
    (b : MintedBlock) (h : Mint bt ub miner = .ok b) :
    Graft P bt ub miner =
      .ok (⟨mapSet bt.blocks (P.blockHash (sealBlock P bt.network b)) (sealBlock P bt.network b),
              bt.network⟩, P.blockHash (sealBlock P bt.network b)) := by
  unfold Graft
  rw [h]

/-! ## The admission pipeline -/

/-- C4: a candidate whose previous digest is the sentinel is rejected by `Mint` with the
error "multiple root blocks are not allowed" whenever the store is not empty, whatever
transactions it carries, and `Graft` then aborts with that error and yields no new ledger. -/
theorem mint_second_root_rejected (P : Primitives) (bt : Blocktree) (ub : UnmintedBlock)
    (miner : Address) (hne : bt.blocks ≠ []) (hprev : ub.Previous = NilHash) :
    Mint bt ub miner = .error errInvalidRoot ∧ Graft P bt ub miner = .error errInvalidRoot := by
  have hm : Mint bt ub miner = .error errInvalidRoot := by
    unfold Mint
    have hl : bt.blocks.length ≠ 0 := by
      intro h
      exact hne (List.length_eq_zero.mp h)
    rw [if_pos hprev, if_pos hl]
  refine ⟨hm, ?_⟩
  unfold Graft
  rw [hm]

theorem mint_second_root_rejected_witness :
    Mint demoLedger0 demoForgedRoot "M" = .error errInvalidRoot ∧
      Graft demo demoLedger0 demoForgedRoot "M" = .error errInvalidRoot :=
  mint_second_root_rejected demo demoLedger0 demoForgedRoot "M" (by decide) (by decide)

/-- C5, as stated, fails: a root candidate that carries a transaction with the single input
(sentinel, 0) is refused by `Mint` with "illegal coinbase transaction found" although the
store is empty, and `Graft` aborts. -/
theorem graft_forged_root_into_empty_aborts :
    (⟨[], demoNet⟩ : Blocktree).blocks = [] ∧ demoForgedRoot.Previous = NilHash ∧
      Mint ⟨[], demoNet⟩ demoForgedRoot "M" = .error errForgedCoinbase ∧
      Graft demo ⟨[], demoNet⟩ demoForgedRoot "M" = .error errForgedCoinbase :=
  ⟨rfl, rfl, rfl, rfl⟩

/-- C5, amended: a candidate whose previous digest is the sentinel and none of whose
transactions is a coinbase transaction is always admitted into a ledger with an empty store:
`Mint` returns a block, `Graft` returns a ledger and a digest, and `Block` of that digest is
present in the new ledger (it is the block of `Mint` with the nonce of the sealer). -/
theorem graft_root_into_empty (P : Primitives) (bt : Blocktree) (ub : UnmintedBlock)
    (miner : Address) (hempty : bt.blocks = []) (hprev : ub.Previous = NilHash)
    (hall : ∀ e ∈ ub.Transactions, e.2.IsFromCoinbase = false) :
    ∃ b bt' h, Mint bt ub miner = .ok b ∧ Graft P bt ub miner = .ok (bt', h) ∧
      Block bt' h = some (sealBlock P bt.network b) := by
  have hc := hasCoinbase_false_of_forall ub.Transactions hall
  have hm : Mint bt ub miner =
      .ok ⟨mapSet ub.Transactions "coinbase" (rewardTx bt miner), ub.Previous, 0⟩ := by
    unfold Mint
    rw [if_pos hprev, if_neg (by simp [hempty])]
    exact (mintTxs_ok_iff bt ub miner _).mpr ⟨hc, rfl⟩
  refine ⟨_, _, _, hm, graft_of_mint P bt ub miner _ hm, ?_⟩
  simp only [Block]
  exact mapGet_mapSet_same _ _ _

theorem graft_root_into_empty_witness :
    ∃ b bt' h, Mint ⟨[], demoNet⟩ (NewBlock NilHash) "A" = .ok b ∧
      Graft demo ⟨[], demoNet⟩ (NewBlock NilHash) "A" = .ok (bt', h) ∧
      Block bt' h = some (sealBlock demo demoNet b) :=
  graft_root_into_empty demo ⟨[], demoNet⟩ (NewBlock NilHash) "A" rfl rfl (by decide)

/-- C6, as stated, fails: in a ledger that already holds a root, a root candidate that
carries a transaction with the single input (sentinel, 0) is rejected with "multiple root
blocks are not allowed", not with "illegal coinbase transaction found". -/
theorem mint_forged_coinbase_other_error :
    demoForged.Inputs = [⟨NilHash, 0⟩] ∧ ("X", demoForged) ∈ demoForgedRoot.Transactions ∧
      Mint demoLedger0 demoForgedRoot "M" = .error errInvalidRoot ∧
      Mint demoLedger0 demoForgedRoot "M" ≠ .error errForgedCoinbase := by
  refine ⟨rfl, by decide, rfl, ?_⟩
  intro h
  have h2 : Mint demoLedger0 demoForgedRoot "M" = .error errInvalidRoot := rfl
  rw [h2] at h
  injection h with h
  exact absurd h (by decide)

/-- C6, amended: a candidate that holds a transaction whose inputs are exactly one input
(sentinel, 0) is always rejected by `Mint`; the error is "illegal coinbase transaction found"
whenever the candidate passes the parent check, that is, its previous digest is the sentinel
and the store is empty, or its previous digest is a key of the store. -/
theorem mint_forged_coinbase_rejected (bt : Blocktree) (ub : UnmintedBlock) (miner : Address)
    (hnd : keysNodup ub.Transactions) (e : String × Transaction) (he : e ∈ ub.Transactions)
    (hin : e.2.Inputs = [⟨NilHash, 0⟩]) :
    (∃ msg, Mint bt ub miner = .error msg) ∧
      ((ub.Previous = NilHash ∧ bt.blocks = [] ∨
          ub.Previous ≠ NilHash ∧ (Block bt ub.Previous).isSome = true) →
        Mint bt ub miner = .error errForgedCoinbase) := by
  have hc : hasCoinbase ub.Transactions = true :=
    hasCoinbase_true_of_mem ub.Transactions hnd e he (isFromCoinbase_of_inputs e.2 hin)
  have ht : mintTxs bt ub miner = .error errForgedCoinbase := by
    unfold mintTxs
    rw [if_pos hc]
  constructor
  · rcases mint_eq_mintTxs_or bt ub miner with h1 | h1 | h1
    · exact ⟨_, h1.1⟩
    · exact ⟨_, h1.1⟩
    · exact ⟨_, h1.1.trans ht⟩
  · intro hpar
    rcases mint_eq_mintTxs_or bt ub miner with h1 | h1 | h1
    · rcases hpar with h2 | h2
      · exact absurd h2.2 h1.2.2
      · exact absurd h1.2.1 h2.1
    · rcases hpar with h2 | h2
      · exact absurd h2.1 h1.2.1
      · rw [h1.2.2] at h2
        simp at h2
    · exact h1.1.trans ht

theorem mint_forged_coinbase_rejected_witness :
    (∃ msg, Mint ⟨[], demoNet⟩ demoForgedRoot "M" = .error msg) ∧
      ((demoForgedRoot.Previous = NilHash ∧ (⟨[], demoNet⟩ : Blocktree).blocks = [] ∨
          demoForgedRoot.Previous ≠ NilHash ∧
            (Block ⟨[], demoNet⟩ demoForgedRoot.Previous).isSome = true) →
        Mint ⟨[], demoNet⟩ demoForgedRoot "M" = .error errForgedCoinbase) :=
  mint_forged_coinbase_rejected ⟨[], demoNet⟩ demoForgedRoot "M" (by decide)
    ("X", demoForged) (by decide) rfl

/-- C7: `Mint` returns the error "previous block not found" exactly when the previous digest
of the candidate is not the sentinel and is not a key of the store; hence whenever `Mint`
returns a block, or `Graft` admits the candidate, for a candidate that is not a root, its
previous digest names a stored block. -/
theorem mint_unknown_parent_iff (P : Primitives) (bt : Blocktree) (ub : UnmintedBlock)
    (miner : Address) :
    (Mint bt ub miner = .error errUnknownParent ↔
        ub.Previous ≠ NilHash ∧ Block bt ub.Previous = none) ∧
      (∀ b, Mint bt ub miner = .ok b → ub.Previous ≠ NilHash →
        (Block bt ub.Previous).isSome = true) ∧
      (∀ r, Graft P bt ub miner = .ok r → ub.Previous ≠ NilHash →
        (Block bt ub.Previous).isSome = true) := by
  have key : ∀ b, Mint bt ub miner = .ok b → ub.Previous ≠ NilHash →
      (Block bt ub.Previous).isSome = true := by
    intro b hb hp
    rcases mint_eq_mintTxs_or bt ub miner with h1 | h1 | h1
    · rw [h1.1] at hb; cases hb
    · rw [h1.1] at hb; cases hb
    · rcases h1.2 with h2 | h2
      · exact absurd h2.1 hp
      · exact h2.2
  refine ⟨⟨?_, ?_⟩, key, ?_⟩
  · intro h
    rcases mint_eq_mintTxs_or bt ub miner with h1 | h1 | h1
    · rw [h1.1] at h
      injection h with h
      exact absurd h (by decide)
    · exact h1.2
    · rw [h1.1] at h
      exact absurd h (mintTxs_ne_unknownParent bt ub miner)
  · intro h
    unfold Mint
    rw [if_neg h.1, if_pos h.2]
  · intro r hr hp
    unfold Graft at hr
    cases hm : Mint bt ub miner with
    | error e => rw [hm] at hr; cases hr
    | ok b => exact key b hm hp

theorem mint_unknown_parent_iff_witness :
    Mint demoLedger0 ⟨[], 5⟩ "M" = .error errUnknownParent ∧
      (Block demoLedger0 demoCandidate.Previous).isSome = true :=
  ⟨(mint_unknown_parent_iff demo demoLedger0 ⟨[], 5⟩ "M").1.mpr ⟨by decide, by decide⟩,
    (mint_unknown_parent_iff demo demoLedger0 demoCandidate "M").2.1 demoTipBlock rfl
      (by decide)⟩

/-- C8: when `Mint` succeeds on a candidate (whose transaction map has pairwise distinct
keys), the returned unsealed block has the previous digest of the candidate, nonce 0, and
exactly one coinbase transaction among its transactions: the reward transaction, with the
single input (sentinel, 0) and the single output that pays the network reward to the miner. -/
theorem mint_injects_one_coinbase (bt : Blocktree) (ub : UnmintedBlock) (miner : Address)
    (b : MintedBlock) (hnd : keysNodup ub.Transactions) (h : Mint bt ub miner = .ok b) :
    b.previous = ub.Previous ∧ b.nonce = 0 ∧
      b.transactions.filter (fun e => e.2.IsFromCoinbase) =
        [("coinbase", ⟨[⟨NilHash, 0⟩], [⟨miner, bt.network.Reward⟩]⟩)] := by
  obtain ⟨hc, hb⟩ := (mintTxs_ok_iff bt ub miner b).mp (mint_ok_mintTxs bt ub miner b h)
  subst hb
  refine ⟨rfl, rfl, ?_⟩
  exact filter_mapSet_coinbase ub.Transactions (rewardTx bt miner)
    (forall_of_hasCoinbase_false ub.Transactions hnd hc) (rewardTx_isFromCoinbase bt miner)

theorem mint_injects_one_coinbase_witness :
    demoTipBlock.previous = demoCandidate.Previous ∧ demoTipBlock.nonce = 0 ∧
      demoTipBlock.transactions.filter (fun e => e.2.IsFromCoinbase) =
        [("coinbase", ⟨[⟨NilHash, 0⟩], [⟨"M", demoLedger0.network.Reward⟩]⟩)] :=
  mint_injects_one_coinbase demoLedger0 demoCandidate "M" demoTipBlock (by decide) rfl

/-! ## Lemmas about the builder -/

theorem U64_pos : 0 < U64 := by decide

theorem sumValues_eq (outputs : List TxOutput) (a : Nat) (ha : a < U64) :
    sumValues outputs a = (a + totalValue outputs) % U64 := by
  induction outputs generalizing a with
  | nil => simp [sumValues, totalValue, Nat.mod_eq_of_lt ha]
  | cons r rest ih =>
    simp only [sumValues]
    rw [ih _ (Nat.mod_lt _ U64_pos)]
    simp only [totalValue, List.map_cons, List.sum_cons]
    rw [Nat.add_mod ((a + r.Value) % U64), Nat.mod_mod, ← Nat.add_mod, Nat.add_assoc]

theorem selectOutputs_lt (address : Address) (amount : Nat) (h : Hash) (outs : List TxOutput)
    (i : Nat) (st : WorkState) (hst : st.accumulated < U64) :
    (selectOutputs address amount h i outs st).accumulated < U64 := by
  induction outs generalizing i st with
  | nil => simpa [selectOutputs] using hst
  | cons out rest ih =>
    unfold selectOutputs
    split
    · simp only []
      split
      · exact Nat.mod_lt _ U64_pos
      · exact ih _ _ (Nat.mod_lt _ U64_pos)
    · exact ih _ _ hst

theorem selectTxs_lt (P : Primitives) (address : Address) (amount : Nat) (txs : List Transaction)
    (st : WorkState) (hst : st.accumulated < U64) :
    (selectTxs P address amount txs st).accumulated < U64 := by
  induction txs generalizing st with
  | nil => simpa [selectTxs] using hst
  | cons tx rest ih =>
    unfold selectTxs
    split
    · exact hst
    · exact ih _ (selectOutputs_lt address amount _ _ _ _ hst)

theorem findSpendableOutputs_lt (P : Primitives) (fuel : Nat) (tree : Blocktree)
    (address : Address) (amount : Nat) (branchTip : Hash) (S : Nat) (sel : IndexMap)
    (h : findSpendableOutputs P fuel tree address amount branchTip = some (S, sel)) :
    S < U64 := by
  unfold findSpendableOutputs at h
  cases hf : findUnspentTxs P fuel tree address branchTip with
  | none => rw [hf] at h; cases h
  | some txs =>
    rw [hf] at h
    simp only [Option.some.injEq, Prod.mk.injEq] at h
    rw [← h.1]
    exact selectTxs_lt P address amount txs _ U64_pos

/-! ## The builder -/

/-- C9: whenever the resolver returns a total `S` for the sender, the requested amount (the
`uint64` sum of the requested values, which is their sum whenever that sum fits in 64 bits)
and the previous digest of the candidate, `AddTx` returns; the error it returns is "not
enough funds" if and only if `S` is smaller than the amount, every other return is `nil`,
and when the error is returned the candidate is unchanged. -/
theorem addTx_insufficient_iff (P : Primitives) (fuel : Nat) (b : UnmintedBlock)
    (tree : Blocktree) (sender : Address) (outputs : List TxOutput) (S : Nat) (sel : IndexMap)
    (h : findSpendableOutputs P fuel tree sender (sumValues outputs 0) b.Previous =
      some (S, sel)) :
    ∃ b' err, AddTx P fuel b tree sender outputs = some (b', err) ∧
      (err = some errInsufficientFunds ↔ S < sumValues outputs 0) ∧
      (err = some errInsufficientFunds ∨ err = none) ∧
      (err = some errInsufficientFunds → b' = b) ∧
      sumValues outputs 0 = totalValue outputs % U64 := by
  have hsum : sumValues outputs 0 = totalValue outputs % U64 := by
    rw [sumValues_eq outputs 0 U64_pos, Nat.zero_add]
  unfold AddTx
  simp only [h]
  by_cases hlt : S < sumValues outputs 0
  · rw [if_pos hlt]
    refine ⟨b, some errInsufficientFunds, rfl, ?_, Or.inl rfl, fun _ => rfl, hsum⟩
    simp [hlt]
  · rw [if_neg hlt]
    refine ⟨_, none, rfl, ?_, Or.inr rfl, ?_, hsum⟩
    · simp [hlt]
    · intro hc
      cases hc

theorem addTx_insufficient_iff_witness :
    ∃ b' err, AddTx demo 2 demoCandidate demoLedger0 "B" [⟨"A", 1⟩] = some (b', err) ∧
      (err = some errInsufficientFunds ↔ 0 < sumValues [⟨"A", 1⟩] 0) ∧
      (err = some errInsufficientFunds ∨ err = none) ∧
      (err = some errInsufficientFunds → b' = demoCandidate) ∧
      sumValues [⟨"A", 1⟩] 0 = totalValue [⟨"A", 1⟩] % U64 :=
  addTx_insufficient_iff demo 2 demoCandidate demoLedger0 "B" [⟨"A", 1⟩] 0 [] (by decide)

/-- C10: when `AddTx` succeeds for requested outputs of total value `V` (the mathematical sum
of their values), the resolver returned a total `S` for the sender, the amount `V mod 2^64`
and the previous digest of the candidate, and the transaction stored for the sender has, if
`S = V`, exactly the requested outputs, and if `S > V`, the requested outputs followed by the
one change output that pays `S - V` to the sender. -/
theorem addTx_change_output (P : Primitives) (fuel : Nat) (b b' : UnmintedBlock)
    (tree : Blocktree) (sender : Address) (outputs : List TxOutput)
    (h : AddTx P fuel b tree sender outputs = some (b', none)) :
    ∃ S sel tx,
      findSpendableOutputs P fuel tree sender (totalValue outputs % U64) b.Previous =
        some (S, sel) ∧
      mapGet b'.Transactions sender = some tx ∧
      (S = totalValue outputs → tx.Outputs = outputs) ∧
      (S > totalValue outputs →
        tx.Outputs = outputs ++ [⟨sender, S - totalValue outputs⟩]) := by
  have hsum : sumValues outputs 0 = totalValue outputs % U64 := by
    rw [sumValues_eq outputs 0 U64_pos, Nat.zero_add]
  unfold AddTx at h
  simp only [hsum] at h
  cases hf : findSpendableOutputs P fuel tree sender (totalValue outputs % U64) b.Previous with
  | none => rw [hf] at h; cases h
  | some r =>
    obtain ⟨S, sel⟩ := r
    have hS : S < U64 := findSpendableOutputs_lt P fuel tree sender _ _ S sel hf
    rw [hf] at h
    simp only at h
    by_cases hlt : S < totalValue outputs % U64
    · rw [if_pos hlt] at h
      simp at h
    · rw [if_neg hlt] at h
      simp only [Option.some.injEq, Prod.mk.injEq, and_true] at h
      refine ⟨S, sel, ⟨makeInputs sel, if S > totalValue outputs % U64 then
        outputs ++ [⟨sender, S - totalValue outputs % U64⟩] else outputs⟩, rfl, ?_, ?_, ?_⟩
      · rw [← h]
        exact mapGet_mapSet_same _ _ _
      · intro hSV
        have hV : totalValue outputs % U64 = totalValue outputs :=
          Nat.mod_eq_of_lt (hSV ▸ hS)
        rw [hV, if_neg (by omega)]
      · intro hSV
        have hV : totalValue outputs % U64 = totalValue outputs :=
          Nat.mod_eq_of_lt (by omega)
        rw [hV, if_pos hSV]

theorem addTx_change_output_witness :
    ∃ S sel tx,
      findSpendableOutputs demo 2 demoLedger0 "A" (totalValue [⟨"B", 4⟩] % U64)
        (NewBlock 1001).Previous = some (S, sel) ∧
      mapGet demoCandidate.Transactions "A" = some tx ∧
      (S = totalValue [⟨"B", 4⟩] → tx.Outputs = [⟨"B", 4⟩]) ∧
      (S > totalValue [⟨"B", 4⟩] →
        tx.Outputs = [⟨"B", 4⟩] ++ [⟨"A", S - totalValue [⟨"B", 4⟩]⟩]) :=
  addTx_change_output demo 2 (NewBlock 1001) demoCandidate demoLedger0 "A" [⟨"B", 4⟩]
    (by decide)

/-! ## Lemmas about the backward walk -/

theorem walk_congr_of_branch (P : Primitives) (bt bt2 : Blocktree) (address : Address)
    (fuel : Nat) (tip : Hash) (st : List Transaction × IndexMap) (path : List Hash)
    (hpath : branch bt fuel tip = some path)
    (hagree : ∀ d ∈ path, Block bt2 d = Block bt d) :
    walk P bt2 address fuel tip st = walk P bt address fuel tip st := by
  induction fuel generalizing tip st path with
  | zero =>
    simp only [walk]
  | succ n ih =>
    simp only [walk]
    by_cases ht : tip = NilHash
    · simp only [ht, if_true]
    · simp only [branch, ht, if_false] at hpath
      simp only [ht, if_false]
      cases hb : Block bt tip with
      | none => rw [hb] at hpath; cases hpath
      | some blk =>
        rw [hb] at hpath
        dsimp only at hpath
        cases hrest : branch bt n blk.previous with
        | none => rw [hrest] at hpath; cases hpath
        | some rest =>
          rw [hrest] at hpath
          simp only [Option.map_some', Option.some.injEq] at hpath
          subst hpath
          rw [hagree tip (List.mem_cons_self _ _), hb]
          exact ih blk.previous _ rest hrest
            (fun d hd => hagree d (List.mem_cons_of_mem _ hd))

theorem walk_isSome_of_branch (P : Primitives) (bt : Blocktree) (address : Address)
    (fuel : Nat) (tip : Hash) (st : List Transaction × IndexMap) (path : List Hash)
    (hpath : branch bt fuel tip = some path) :
    (walk P bt address fuel tip st).isSome = true := by
  induction fuel generalizing tip st path with
  | zero =>
    by_cases ht : tip = NilHash
    · simp [walk, ht]
    · simp [branch, ht] at hpath
  | succ n ih =>
    simp only [walk]
    by_cases ht : tip = NilHash
    · simp [ht]
    · simp only [branch, ht, if_false] at hpath
      simp only [ht, if_false]
      cases hb : Block bt tip with
      | none => rw [hb] at hpath; cases hpath
      | some blk =>
        rw [hb] at hpath
        dsimp only at hpath
        cases hrest : branch bt n blk.previous with
        | none => rw [hrest] at hpath; cases hpath
        | some rest => exact ih blk.previous _ rest hrest

theorem walk_congr_of_closed (P : Primitives) (bt bt2 : Blocktree) (address : Address)
    (hclosed : Closed bt)
    (hagree : ∀ d, (Block bt d).isSome = true → Block bt2 d = Block bt d)
    (fuel : Nat) (tip : Hash) (st : List Transaction × IndexMap)
    (htip : tip = NilHash ∨ (Block bt tip).isSome = true) :
    walk P bt2 address fuel tip st = walk P bt address fuel tip st := by
  induction fuel generalizing tip st with
  | zero => simp only [walk]
  | succ n ih =>
    simp only [walk]
    by_cases ht : tip = NilHash
    · simp only [ht, if_true]
    · simp only [ht, if_false]
      have hs : (Block bt tip).isSome = true := by
        rcases htip with h | h
        · exact absurd h ht
        · exact h
      rw [hagree tip hs]
      cases hb : Block bt tip with
      | none => rfl
      | some blk => exact ih blk.previous _ (hclosed tip blk hb)

theorem findSpendableOutputs_congr (P : Primitives) (fuel : Nat) (bt bt2 : Blocktree)
    (address : Address) (amount : Nat) (tip : Hash)
    (h : findUnspentTxs P fuel bt2 address tip = findUnspentTxs P fuel bt address tip) :
    findSpendableOutputs P fuel bt2 address amount tip =
      findSpendableOutputs P fuel bt address amount tip := by
  unfold findSpendableOutputs
  rw [h]

/-- The resolver returns whenever the branch of the tip reaches the sentinel within the fuel. -/
theorem findSpendableOutputs_isSome_of_branch (P : Primitives) (bt : Blocktree)
    (address : Address) (amount fuel : Nat) (tip : Hash) (path : List Hash)
    (hpath : branch bt fuel tip = some path) :
    (findSpendableOutputs P fuel bt address amount tip).isSome = true := by
  have hw := walk_isSome_of_branch P bt address fuel tip ([], []) path hpath
  unfold findSpendableOutputs findUnspentTxs
  cases hr : walk P bt address fuel tip ([], []) with
  | none => rw [hr] at hw; cases hw
  | some r => rfl

theorem isSome_mapGet_mapSet {κ β : Type} [DecidableEq κ] (m : List (κ × β)) (k k' : κ) (v : β)
    (h : (mapGet m k').isSome = true) : (mapGet (mapSet m k v) k').isSome = true := by
  by_cases hk : k = k'
  · subst hk
    rw [mapGet_mapSet_same]
    rfl
  · rw [mapGet_mapSet_other m k k' v hk]
    exact h

theorem closed_empty (n : Network) : Closed ⟨[], n⟩ := by
  intro d blk h
  simp [Block, mapGet] at h

theorem closed_graft (P : Primitives) (bt bt' : Blocktree) (ub : UnmintedBlock)
    (miner : Address) (h : Hash) (hclosed : Closed bt)
    (hg : Graft P bt ub miner = .ok (bt', h)) : Closed bt' := by
  cases hm : Mint bt ub miner with
  | error e =>
    unfold Graft at hg
    rw [hm] at hg
    cases hg
  | ok b =>
    rw [graft_of_mint P bt ub miner b hm] at hg
    simp only [Except.ok.injEq, Prod.mk.injEq] at hg
    obtain ⟨hbt, hh⟩ := hg
    subst hbt
    obtain ⟨_, hb⟩ := (mintTxs_ok_iff bt ub miner b).mp (mint_ok_mintTxs bt ub miner b hm)
    have hprev : b.previous = NilHash ∨ (Block bt b.previous).isSome = true := by
      rcases mint_eq_mintTxs_or bt ub miner with h1 | h1 | h1
      · rw [h1.1] at hm; cases hm
      · rw [h1.1] at hm; cases hm
      · rw [hb]
        rcases h1.2 with h2 | h2
        · exact Or.inl h2.1
        · exact Or.inr h2.2
    intro d blk hd
    simp only [Block] at hd ⊢
    by_cases hdh : P.blockHash (sealBlock P bt.network b) = d
    · rw [← hdh, mapGet_mapSet_same] at hd
      simp only [Option.some.injEq] at hd
      subst hd
      rcases hprev with hp | hp
      · exact Or.inl hp
      · exact Or.inr (isSome_mapGet_mapSet _ _ _ _ hp)
    · rw [mapGet_mapSet_other _ _ _ _ hdh] at hd
      rcases hclosed d blk hd with hp | hp
      · exact Or.inl hp
      · exact Or.inr (isSome_mapGet_mapSet _ _ _ _ hp)

/-! ## Branch locality of the resolver -/

/-- C3: the results of `findUnspentTxs` and `findSpendableOutputs` for a tip depend only on
the blocks of the branch of that tip: they are the same, and are returned, in every ledger
that stores the same blocks under the digests of the branch. In particular, in a ledger whose
store is closed under `previous` (as is every store built by `Graft`), a successful `Graft`
whose digest was not a key of the store leaves both results unchanged for every tip that was
stored. -/
theorem resolver_branch_local (P : Primitives) (bt : Blocktree) (address : Address)
    (amount : Nat) :
    (∀ (bt2 : Blocktree) (fuel : Nat) (tip : Hash) (path : List Hash),
      branch bt fuel tip = some path → (∀ d ∈ path, Block bt2 d = Block bt d) →
        findUnspentTxs P fuel bt2 address tip = findUnspentTxs P fuel bt address tip ∧
        findSpendableOutputs P fuel bt2 address amount tip =
          findSpendableOutputs P fuel bt address amount tip ∧
        (findUnspentTxs P fuel bt address tip).isSome = true) ∧
    (∀ (ub : UnmintedBlock) (miner : Address) (bt' : Blocktree) (h : Hash),
      Closed bt → Graft P bt ub miner = .ok (bt', h) → Block bt h = none →
        ∀ (tip : Hash) (fuel : Nat), (Block bt tip).isSome = true →
          findUnspentTxs P fuel bt' address tip = findUnspentTxs P fuel bt address tip ∧
          findSpendableOutputs P fuel bt' address amount tip =
            findSpendableOutputs P fuel bt address amount tip) := by
  constructor
  · intro bt2 fuel tip path hpath hagree
    have hu : findUnspentTxs P fuel bt2 address tip = findUnspentTxs P fuel bt address tip := by
      unfold findUnspentTxs
      rw [walk_congr_of_branch P bt bt2 address fuel tip _ path hpath hagree]
    refine ⟨hu, findSpendableOutputs_congr P fuel bt bt2 address amount tip hu, ?_⟩
    unfold findUnspentTxs
    have := walk_isSome_of_branch P bt address fuel tip ([], []) path hpath
    cases hw : walk P bt address fuel tip ([], []) with
    | none => rw [hw] at this; cases this
    | some r => rfl
  · intro ub miner bt' h hclosed hg hfresh tip fuel htip
    have hagree : ∀ d, (Block bt d).isSome = true → Block bt' d = Block bt d := by
      intro d hd
      cases hm : Mint bt ub miner with
      | error e =>
        unfold Graft at hg
        rw [hm] at hg
        cases hg
      | ok b =>
        rw [graft_of_mint P bt ub miner b hm] at hg
        simp only [Except.ok.injEq, Prod.mk.injEq] at hg
        obtain ⟨hbt, hh⟩ := hg
        subst hbt
        have hne : P.blockHash (sealBlock P bt.network b) ≠ d := by
          intro heq
          rw [hh] at heq
          rw [← heq, hfresh] at hd
          cases hd
        simp only [Block]
        exact mapGet_mapSet_other _ _ _ _ hne
    have hu : findUnspentTxs P fuel bt' address tip = findUnspentTxs P fuel bt address tip := by
      unfold findUnspentTxs
      rw [walk_congr_of_closed P bt bt' address hclosed hagree fuel tip _ (Or.inr htip)]
    exact ⟨hu, findSpendableOutputs_congr P fuel bt bt' address amount tip hu⟩

theorem resolver_branch_local_witness :
    findUnspentTxs demo 2 demoLedger1 "A" 1001 = findUnspentTxs demo 2 demoLedger0 "A" 1001 ∧
      findSpendableOutputs demo 2 demoLedger1 "A" 10 1001 =
        findSpendableOutputs demo 2 demoLedger0 "A" 10 1001 :=
  (resolver_branch_local demo demoLedger0 "A" 10).2 demoCandidate "M" demoLedger1 3002
    (closed_graft demo ⟨[], demoNet⟩ demoLedger0 (NewBlock NilHash) "A" 1001
      (closed_empty demoNet) rfl)
    rfl (by decide) 1001 2 (by decide)

/-! ## The resolver on the concrete ledger -/

/-- C1, evaluated on the concrete ledger: the ledger is built by `NewTree`, `AddTx` and
`Graft`; on the branch of its tip 3002 the transaction of `A` in the tip block spends output 0
of the root coinbase transaction (hash 1076), and `findSpendableOutputs` for `A` and amount 10
still selects the pair (1076, 0). The inputs of a transaction are recorded under the hash of
the spending transaction, not under the hash they reference, so the spent output is not
shadowed when the walk reaches it. -/
theorem spendable_selects_spent_output :
    NewTree demo demoNet "A" = .ok (demoLedger0, 1001) ∧
      AddTx demo 2 (NewBlock 1001) demoLedger0 "A" [⟨"B", 4⟩] = some (demoCandidate, none) ∧
      Graft demo demoLedger0 demoCandidate "M" = .ok (demoLedger1, 3002) ∧
      branch demoLedger1 2 3002 = some [3002, 1001] ∧
      demo.txHash demoCoinbaseA = 1076 ∧
      demoSpend ∈ branchTxs demoLedger1 [3002, 1001] ∧
      demoSpend.IsFromCoinbase = false ∧
      (⟨1076, 0⟩ : TxInput) ∈ demoSpend.Inputs ∧
      findSpendableOutputs demo 2 demoLedger1 "A" 10 3002 =
        some (16, [(1077772, [1]), (1076, [0])]) :=
  ⟨rfl, by decide, rfl, by decide, by decide, by decide, by decide, by decide, by decide⟩

/-- C2, evaluated on the concrete ledger: on the branch of the tip 3002 the true unspent
value of `A` is 6 (the change output; the reward of the root is spent), which is smaller than
the amount 10, and `findSpendableOutputs` for `A` and amount 10 returns the total 16, which
is not smaller than the amount. -/
theorem spendable_total_counts_spent_output :
    branch demoLedger1 2 3002 = some [3002, 1001] ∧
      trueUnspent demo demoLedger1 "A" [3002, 1001] = 6 ∧
      (findSpendableOutputs demo 2 demoLedger1 "A" 10 3002).map Prod.fst = some 16 ∧
      (6 : Nat) < 10 ∧ ¬ (16 : Nat) < 10 :=
  ⟨by decide, by decide, by decide, by decide, by decide⟩

/-! ## More lemmas about association lists -/

theorem mapKeys_mapSet {κ β : Type} [DecidableEq κ] (m : List (κ × β)) (k : κ) (v : β) :
    mapKeys (mapSet m k v) = if k ∈ mapKeys m then mapKeys m else mapKeys m ++ [k] := by
  induction m with
  | nil => simp [mapSet, mapKeys]
  | cons e rest ih =>
    obtain ⟨k', v'⟩ := e
    by_cases hk : k' = k
    · subst hk
      simp [mapSet, mapKeys]
    · have hk2 : ¬ k = k' := fun h => hk h.symm
      simp only [mapKeys] at ih
      simp only [mapSet, hk, if_false, mapKeys, List.map_cons, List.mem_cons, hk2, false_or, ih]
      split <;> simp

theorem keysNodup_mapSet {κ β : Type} [DecidableEq κ] (m : List (κ × β)) (k : κ) (v : β)
    (h : keysNodup m) : keysNodup (mapSet m k v) := by
  unfold keysNodup at *
  rw [mapKeys_mapSet]
  split
  · exact h
  · rename_i hk
    rw [List.nodup_append]
    refine ⟨h, List.nodup_singleton k, ?_⟩
    intro a ha hb
    simp only [List.mem_singleton] at hb
    subst hb
    exact hk ha

theorem mapGet_eq_none_iff {κ β : Type} [DecidableEq κ] (m : List (κ × β)) (k : κ) :
    mapGet m k = none ↔ k ∉ mapKeys m := by
  induction m with
  | nil => simp [mapGet, mapKeys]
  | cons e rest ih =>
    obtain ⟨k', v'⟩ := e
    simp only [mapKeys] at ih
    by_cases hk : k' = k
    · subst hk
      simp [mapGet, mapKeys]
    · have hk2 : ¬ k = k' := fun h => hk h.symm
      simp [mapGet, mapKeys, hk, hk2, ih]

theorem mapSet_of_none {κ β : Type} [DecidableEq κ] (m : List (κ × β)) (k : κ) (v : β)
    (h : mapGet m k = none) : mapSet m k v = m ++ [(k, v)] := by
  induction m with
  | nil => simp [mapSet]
  | cons e rest ih =>
    obtain ⟨k', v'⟩ := e
    by_cases hk : k' = k
    · simp [mapGet, hk] at h
    · simp only [mapGet, hk, if_false] at h
      simp [mapSet, hk, ih h]

/-! ## Frame properties of the builder and of the ledger -/

/-- C12: after a successful `AddTx` for a sender, the entry of the candidate for that sender
is exactly the newly built transaction (the inputs made from the selection, the requested
outputs and the change output if there is a surplus), whatever entry the sender had before;
the entry of every other sender and the previous digest are unchanged, and the keys of the
transaction map stay pairwise distinct, so the candidate holds one transaction per sender. -/
theorem addTx_overwrites_sender (P : Primitives) (fuel : Nat) (b b' : UnmintedBlock)
    (tree : Blocktree) (sender : Address) (outputs : List TxOutput)
    (h : AddTx P fuel b tree sender outputs = some (b', none)) :
    ∃ S sel,
      findSpendableOutputs P fuel tree sender (sumValues outputs 0) b.Previous =
        some (S, sel) ∧
      mapGet b'.Transactions sender =
        some ⟨makeInputs sel,
          if S > sumValues outputs 0 then outputs ++ [⟨sender, S - sumValues outputs 0⟩]
          else outputs⟩ ∧
      (∀ k, k ≠ sender → mapGet b'.Transactions k = mapGet b.Transactions k) ∧
      b'.Previous = b.Previous ∧
      (keysNodup b.Transactions → keysNodup b'.Transactions) := by
  unfold AddTx at h
  cases hf : findSpendableOutputs P fuel tree sender (sumValues outputs 0) b.Previous with
  | none => simp [hf] at h
  | some r =>
    obtain ⟨S, sel⟩ := r
    simp only [hf] at h
    by_cases hlt : S < sumValues outputs 0
    · rw [if_pos hlt] at h
      simp at h
    · rw [if_neg hlt] at h
      simp only [Option.some.injEq, Prod.mk.injEq, and_true] at h
      subst h
      refine ⟨S, sel, rfl, mapGet_mapSet_same _ _ _, ?_, rfl, ?_⟩
      · intro k hk
        exact mapGet_mapSet_other _ _ _ _ (fun h => hk h.symm)
      · intro hnd
        exact keysNodup_mapSet _ _ _ hnd

theorem addTx_overwrites_sender_witness :
    ∃ S sel,
      findSpendableOutputs demo 2 demoLedger0 "A" (sumValues [⟨"C", 1⟩] 0)
        demoCandidate.Previous = some (S, sel) ∧
      mapGet (⟨[("A", ⟨[⟨1076, 0⟩], [⟨"C", 1⟩, ⟨"A", 9⟩]⟩)], 1001⟩ : UnmintedBlock).Transactions
          "A" =
        some ⟨makeInputs sel,
          if S > sumValues [⟨"C", 1⟩] 0 then
            [⟨"C", 1⟩] ++ [⟨"A", S - sumValues [⟨"C", 1⟩] 0⟩]
          else [⟨"C", 1⟩]⟩ ∧
      (∀ k, k ≠ "A" →
        mapGet (⟨[("A", ⟨[⟨1076, 0⟩], [⟨"C", 1⟩, ⟨"A", 9⟩]⟩)], 1001⟩ :
          UnmintedBlock).Transactions k = mapGet demoCandidate.Transactions k) ∧
      (⟨[("A", ⟨[⟨1076, 0⟩], [⟨"C", 1⟩, ⟨"A", 9⟩]⟩)], 1001⟩ : UnmintedBlock).Previous =
        demoCandidate.Previous ∧
      (keysNodup demoCandidate.Transactions →
        keysNodup
          (⟨[("A", ⟨[⟨1076, 0⟩], [⟨"C", 1⟩, ⟨"A", 9⟩]⟩)], 1001⟩ : UnmintedBlock).Transactions) :=
  addTx_overwrites_sender demo 2 demoCandidate _ demoLedger0 "A" [⟨"C", 1⟩] (by decide)

/-- C13: for all network parameters and every miner, `NewTree` returns a ledger and a root
digest; the store of the ledger holds exactly one block, `Block` of the root digest is that
block, its previous digest is the sentinel, and its transactions are exactly one coinbase
transaction, with the single input (sentinel, 0) and the single output that pays the reward
of the network to the miner. -/
theorem newTree_root (P : Primitives) (n : Network) (m : Address) :
    ∃ bt root blk, NewTree P n m = .ok (bt, root) ∧ bt.network = n ∧
      bt.blocks.length = 1 ∧ Block bt root = some blk ∧ blk.previous = NilHash ∧
      blk.transactions.map Prod.snd = [⟨[⟨NilHash, 0⟩], [⟨m, n.Reward⟩]⟩] ∧
      (blk.transactions.filter (fun e => e.2.IsFromCoinbase)).length = 1 := by
  have hm : Mint ⟨[], n⟩ (NewBlock NilHash) m =
      .ok ⟨[("coinbase", rewardTx ⟨[], n⟩ m)], NilHash, 0⟩ := rfl
  refine ⟨_, _, sealBlock P n ⟨[("coinbase", rewardTx ⟨[], n⟩ m)], NilHash, 0⟩,
    graft_of_mint P ⟨[], n⟩ (NewBlock NilHash) m _ hm, rfl, rfl, ?_, rfl, rfl, ?_⟩
  · simp [Block, mapSet, mapGet]
  · simp [sealBlock, rewardTx, Transaction.IsFromCoinbase]

theorem newTree_root_witness :
    ∃ bt root blk, NewTree demo ⟨10, 0⟩ "minerA" = .ok (bt, root) ∧ bt.network = ⟨10, 0⟩ ∧
      bt.blocks.length = 1 ∧ Block bt root = some blk ∧ blk.previous = NilHash ∧
      blk.transactions.map Prod.snd = [⟨[⟨NilHash, 0⟩], [⟨"minerA", 10⟩]⟩] ∧
      (blk.transactions.filter (fun e => e.2.IsFromCoinbase)).length = 1 :=
  newTree_root demo ⟨10, 0⟩ "minerA"

/-- The effect of `Graft` on the store: after a successful `Graft` that returns the digest
`h`, `Block h` is present and is the block `Mint` produced, sealed by the sealer: its previous
digest is that of the candidate and its transactions are those of the candidate with the
reward transaction set under the key "coinbase" (appended after them only when the candidate
has no such key); `Block d` is unchanged for every other digest `d`, the network parameters
are unchanged, and `Block d` is absent exactly for the digests that are not keys of the
store. -/
theorem graft_inserts_minted_block (P : Primitives) (bt bt' : Blocktree) (ub : UnmintedBlock)
    (miner : Address) (h : Hash) (hg : Graft P bt ub miner = .ok (bt', h)) :
    ∃ b, Mint bt ub miner = .ok b ∧ b.previous = ub.Previous ∧ b.nonce = 0 ∧
      b.transactions = mapSet ub.Transactions "coinbase" (rewardTx bt miner) ∧
      (mapGet ub.Transactions "coinbase" = none →
        b.transactions = ub.Transactions ++ [("coinbase", rewardTx bt miner)]) ∧
      h = P.blockHash (sealBlock P bt.network b) ∧
      Block bt' h = some (sealBlock P bt.network b) ∧
      (sealBlock P bt.network b).previous = ub.Previous ∧
      (sealBlock P bt.network b).transactions = b.transactions ∧
      (∀ d, d ≠ h → Block bt' d = Block bt d) ∧
      bt'.network = bt.network ∧
      (∀ d, Block bt' d = none ↔ d ∉ mapKeys bt'.blocks) := by
  cases hm : Mint bt ub miner with
  | error e =>
    unfold Graft at hg
    rw [hm] at hg
    cases hg
  | ok b =>
    rw [graft_of_mint P bt ub miner b hm] at hg
    simp only [Except.ok.injEq, Prod.mk.injEq] at hg
    obtain ⟨hbt, hh⟩ := hg
    subst hbt
    obtain ⟨_, hb⟩ := (mintTxs_ok_iff bt ub miner b).mp (mint_ok_mintTxs bt ub miner b hm)
    refine ⟨b, rfl, ?_, ?_, ?_, ?_, hh.symm, ?_, ?_, rfl, ?_, rfl, ?_⟩
    · rw [hb]
    · rw [hb]
    · rw [hb]
    · intro hnone
      rw [hb]
      exact mapSet_of_none _ _ _ hnone
    · rw [← hh]
      simp only [Block]
      exact mapGet_mapSet_same _ _ _
    · rw [hb]
      rfl
    · intro d hd
      simp only [Block]
      exact mapGet_mapSet_other _ _ _ _ (fun heq => hd (heq.symm.trans hh))
    · intro d
      exact mapGet_eq_none_iff _ d

theorem graft_inserts_minted_block_witness :
    ∃ b, Mint demoLedger0 demoCandidate "M" = .ok b ∧ b.previous = demoCandidate.Previous ∧
      b.nonce = 0 ∧
      b.transactions = mapSet demoCandidate.Transactions "coinbase" (rewardTx demoLedger0 "M") ∧
      (mapGet demoCandidate.Transactions "coinbase" = none →
        b.transactions = demoCandidate.Transactions ++ [("coinbase", rewardTx demoLedger0 "M")]) ∧
      3002 = demo.blockHash (sealBlock demo demoLedger0.network b) ∧
      Block demoLedger1 3002 = some (sealBlock demo demoLedger0.network b) ∧
      (sealBlock demo demoLedger0.network b).previous = demoCandidate.Previous ∧
      (sealBlock demo demoLedger0.network b).transactions = b.transactions ∧
      (∀ d, d ≠ 3002 → Block demoLedger1 d = Block demoLedger0 d) ∧
      demoLedger1.network = demoLedger0.network ∧
      (∀ d, Block demoLedger1 d = none ↔ d ∉ mapKeys demoLedger1.blocks) :=
  graft_inserts_minted_block demo demoLedger0 demoLedger1 demoCandidate "M" 3002 rfl

/-! ## Lemmas about reachable ledgers -/

theorem newTree_blocks (P : Primitives) (n : Network) (m : Address) (bt : Blocktree)
    (root : Hash) (h : NewTree P n m = .ok (bt, root)) :
    ∃ blk, bt = ⟨[(root, blk)], n⟩ ∧ blk.previous = NilHash := by
  have hm : NewTree P n m =
      .ok (⟨[(P.blockHash (sealBlock P n ⟨[("coinbase", rewardTx ⟨[], n⟩ m)], NilHash, 0⟩),
          sealBlock P n ⟨[("coinbase", rewardTx ⟨[], n⟩ m)], NilHash, 0⟩)], n⟩,
        P.blockHash (sealBlock P n ⟨[("coinbase", rewardTx ⟨[], n⟩ m)], NilHash, 0⟩)) := rfl
  rw [hm] at h
  simp only [Except.ok.injEq, Prod.mk.injEq] at h
  obtain ⟨h1, h2⟩ := h
  subst h1
  subst h2
  exact ⟨_, rfl, rfl⟩

theorem graft_fresh_blocks (P : Primitives) (bt bt' : Blocktree) (ub : UnmintedBlock)
    (miner : Address) (h : Hash) (hg : Graft P bt ub miner = .ok (bt', h))
    (hfresh : Block bt h = none) :
    ∃ blk, bt' = ⟨bt.blocks ++ [(h, blk)], bt.network⟩ ∧ blk.previous = ub.Previous ∧
      (ub.Previous = NilHash ∧ bt.blocks = [] ∨
        ub.Previous ≠ NilHash ∧ (Block bt ub.Previous).isSome = true) := by
  cases hm : Mint bt ub miner with
  | error e =>
    unfold Graft at hg
    rw [hm] at hg
    cases hg
  | ok b =>
    rw [graft_of_mint P bt ub miner b hm] at hg
    simp only [Except.ok.injEq, Prod.mk.injEq] at hg
    obtain ⟨hbt, hh⟩ := hg
    subst hbt
    obtain ⟨_, hb⟩ := (mintTxs_ok_iff bt ub miner b).mp (mint_ok_mintTxs bt ub miner b hm)
    refine ⟨sealBlock P bt.network b, ?_, ?_, ?_⟩
    · subst hh
      simp only [Block] at hfresh
      rw [mapSet_of_none _ _ _ hfresh]
    · rw [hb]
      rfl
    · rcases mint_eq_mintTxs_or bt ub miner with h1 | h1 | h1
      · rw [h1.1] at hm; cases hm
      · rw [h1.1] at hm; cases hm
      · exact h1.2

theorem rootCount_one_unique (bt : Blocktree) (hnd : keysNodup bt.blocks)
    (hc : rootCount bt = 1) :
    ∃ d, (∃ blk, Block bt d = some blk ∧ blk.previous = NilHash) ∧
      ∀ d', (∃ blk, Block bt d' = some blk ∧ blk.previous = NilHash) → d' = d := by
  unfold rootCount at hc
  obtain ⟨e, he⟩ := List.length_eq_one.mp hc
  have hmem : e ∈ bt.blocks.filter (fun e => decide (e.2.previous = NilHash)) := by
    rw [he]
    exact List.mem_singleton_self e
  rw [List.mem_filter] at hmem
  refine ⟨e.1, ⟨e.2, mapGet_of_mem bt.blocks e.1 e.2 hnd hmem.1, by simpa using hmem.2⟩, ?_⟩
  rintro d' ⟨blk, hb, hp⟩
  have hin : (d', blk) ∈ bt.blocks.filter (fun e => decide (e.2.previous = NilHash)) := by
    rw [List.mem_filter]
    exact ⟨mapGet_mem bt.blocks d' blk hb, by simpa using hp⟩
  rw [he, List.mem_singleton] at hin
  rw [← hin]

theorem reachable_root_invariant (P : Primitives) (bt : Blocktree) (hr : Reachable P bt) :
    keysNodup bt.blocks ∧ rootCount bt = 1 := by
  induction hr with
  | newTree n miner bt root h =>
    obtain ⟨blk, hbt, hp⟩ := newTree_blocks P n miner bt root h
    subst hbt
    constructor
    · simp [keysNodup, mapKeys]
    · simp [rootCount, hp]
  | graft bt bt' ub miner h _ hg hfresh ih =>
    obtain ⟨blk, hbt, hp, hpar⟩ := graft_fresh_blocks P bt bt' ub miner h hg hfresh
    subst hbt
    have hne : bt.blocks ≠ [] := by
      intro hnil
      have := ih.2
      simp [rootCount, hnil] at this
    have hprev : blk.previous ≠ NilHash := by
      rcases hpar with h1 | h1
      · exact absurd h1.2 hne
      · rw [hp]
        exact h1.1
    constructor
    · have hk : h ∉ mapKeys bt.blocks := (mapGet_eq_none_iff bt.blocks h).mp hfresh
      simp only [keysNodup, mapKeys, List.map_append, List.map_cons, List.map_nil]
      rw [List.nodup_append]
      refine ⟨ih.1, List.nodup_singleton h, ?_⟩
      intro a ha hb
      simp only [List.mem_singleton] at hb
      subst hb
      exact hk ha
    · have := ih.2
      simp only [rootCount] at this ⊢
      simp [List.filter_append, hprev, this]

/-! ## Root uniqueness -/

/-- C16: in every ledger reachable from `NewTree` by successful `Graft` calls whose sealed
digest is not already a key of the store, the keys of the store are pairwise distinct and
exactly one stored block has the sentinel as its previous digest; and whenever `Graft`, on
any ledger, inserts a block whose previous digest is the sentinel, the store it was inserted
into was empty. -/
theorem reachable_unique_root (P : Primitives) :
    (∀ bt, Reachable P bt →
      keysNodup bt.blocks ∧ rootCount bt = 1 ∧
      ∃ d, (∃ blk, Block bt d = some blk ∧ blk.previous = NilHash) ∧
        ∀ d', (∃ blk, Block bt d' = some blk ∧ blk.previous = NilHash) → d' = d) ∧
    (∀ (bt bt' : Blocktree) (ub : UnmintedBlock) (miner : Address) (h : Hash)
      (blk : MintedBlock), Graft P bt ub miner = .ok (bt', h) → Block bt' h = some blk →
        blk.previous = NilHash → bt.blocks = []) := by
  constructor
  · intro bt hr
    obtain ⟨hnd, hc⟩ := reachable_root_invariant P bt hr
    exact ⟨hnd, hc, rootCount_one_unique bt hnd hc⟩
  · intro bt bt' ub miner h blk hg hb hp
    cases hm : Mint bt ub miner with
    | error e =>
      unfold Graft at hg
      rw [hm] at hg
      cases hg
    | ok b =>
      rw [graft_of_mint P bt ub miner b hm] at hg
      simp only [Except.ok.injEq, Prod.mk.injEq] at hg
      obtain ⟨hbt, hh⟩ := hg
      subst hbt
      obtain ⟨_, hbe⟩ := (mintTxs_ok_iff bt ub miner b).mp (mint_ok_mintTxs bt ub miner b hm)
      rw [← hh] at hb
      simp only [Block] at hb
      rw [mapGet_mapSet_same] at hb
      simp only [Option.some.injEq] at hb
      have hprev : ub.Previous = NilHash := by
        rw [← hp, ← hb, hbe]
        rfl
      rcases mint_eq_mintTxs_or bt ub miner with h1 | h1 | h1
      · rw [h1.1] at hm; cases hm
      · rw [h1.1] at hm; cases hm
      · rcases h1.2 with h2 | h2
        · exact h2.2
        · exact absurd hprev h2.1

theorem reachable_unique_root_witness :
    keysNodup demoLedger1.blocks ∧ rootCount demoLedger1 = 1 ∧
      ∃ d, (∃ blk, Block demoLedger1 d = some blk ∧ blk.previous = NilHash) ∧
        ∀ d', (∃ blk, Block demoLedger1 d' = some blk ∧ blk.previous = NilHash) → d' = d :=
  (reachable_unique_root demo).1 demoLedger1
    (Reachable.graft demoLedger0 demoLedger1 demoCandidate "M" 3002
      (Reachable.newTree demoNet "A" demoLedger0 1001 rfl) rfl (by decide))

/-! ## Lemmas about the forest structure -/

theorem isSome_mapGet_iff {κ β : Type} [DecidableEq κ] (m : List (κ × β)) (k : κ) :
    (mapGet m k).isSome = true ↔ k ∈ mapKeys m := by
  cases h : mapGet m k with
  | none =>
    have := (mapGet_eq_none_iff m k).mp h
    simp [this]
  | some v =>
    have : ¬ k ∉ mapKeys m := fun hn => by
      rw [(mapGet_eq_none_iff m k).mpr hn] at h
      cases h
    simp only [Option.isSome_some, true_iff]
    exact not_not.mp this

theorem branch_nil (bt : Blocktree) (fuel : Nat) : branch bt fuel NilHash = some [] := by
  cases fuel <;> simp [branch]

theorem ranked_newTree (P : Primitives) (n : Network) (m : Address) (bt : Blocktree)
    (root : Hash) (h : NewTree P n m = .ok (bt, root)) : Ranked bt := by
  obtain ⟨blk, hbt, hp⟩ := newTree_blocks P n m bt root h
  subst hbt
  intro d b hb
  simp only [Block, mapGet] at hb
  split at hb
  · simp only [Option.some.injEq] at hb
    subst hb
    exact Or.inl hp
  · cases hb

theorem ranked_graft (P : Primitives) (bt bt' : Blocktree) (ub : UnmintedBlock)
    (miner : Address) (h : Hash) (hranked : Ranked bt)
    (hg : Graft P bt ub miner = .ok (bt', h)) (hfresh : Block bt h = none) : Ranked bt' := by
  obtain ⟨blk, hbt, hp, hpar⟩ := graft_fresh_blocks P bt bt' ub miner h hg hfresh
  subst hbt
  have hk : h ∉ mapKeys bt.blocks := (mapGet_eq_none_iff bt.blocks h).mp hfresh
  have hkeys : mapKeys (bt.blocks ++ [(h, blk)]) = mapKeys bt.blocks ++ [h] := by
    simp [mapKeys]
  have hold : ∀ d, d ∈ mapKeys bt.blocks →
      rank ⟨bt.blocks ++ [(h, blk)], bt.network⟩ d = rank bt d := by
    intro d hd
    simp only [rank, hkeys]
    exact List.indexOf_append_of_mem hd
  have hnew : rank ⟨bt.blocks ++ [(h, blk)], bt.network⟩ h = (mapKeys bt.blocks).length := by
    simp only [rank, hkeys]
    rw [List.indexOf_append_of_not_mem hk]
    simp
  have hsome : ∀ d, (Block bt d).isSome = true →
      (Block ⟨bt.blocks ++ [(h, blk)], bt.network⟩ d).isSome = true := by
    intro d hd
    simp only [Block] at hd ⊢
    rw [isSome_mapGet_iff] at hd ⊢
    rw [hkeys]
    exact List.mem_append_left _ hd
  have hget : ∀ d, d ≠ h →
      Block ⟨bt.blocks ++ [(h, blk)], bt.network⟩ d = Block bt d := by
    intro d hd
    simp only [Block]
    rw [← mapSet_of_none bt.blocks h blk hfresh]
    exact mapGet_mapSet_other _ _ _ _ (fun heq => hd heq.symm)
  intro d b hb
  by_cases hdh : d = h
  · subst hdh
    have hb' : Block ⟨bt.blocks ++ [(d, blk)], bt.network⟩ d = some blk := by
      simp only [Block]
      rw [← mapSet_of_none bt.blocks d blk hfresh]
      exact mapGet_mapSet_same _ _ _
    rw [hb'] at hb
    simp only [Option.some.injEq] at hb
    subst hb
    rcases hpar with h1 | h1
    · left
      rw [hp]
      exact h1.1
    · right
      rw [hp]
      refine ⟨hsome _ h1.2, ?_⟩
      have hmem : ub.Previous ∈ mapKeys bt.blocks := (isSome_mapGet_iff _ _).mp h1.2
      rw [hold _ hmem, hnew]
      exact List.indexOf_lt_length.mpr hmem
  · rw [hget d hdh] at hb
    rcases hranked d b hb with h1 | h1
    · exact Or.inl h1
    · right
      refine ⟨hsome _ h1.1, ?_⟩
      have hmem : b.previous ∈ mapKeys bt.blocks := (isSome_mapGet_iff _ _).mp h1.1
      have hmemd : d ∈ mapKeys bt.blocks := by
        apply (isSome_mapGet_iff _ _).mp
        simp only [Block] at hb
        rw [hb]
        rfl
      rw [hold _ hmem, hold _ hmemd]
      exact h1.2

theorem reachable_ranked (P : Primitives) (bt : Blocktree) (hr : Reachable P bt) :
    Ranked bt := by
  induction hr with
  | newTree n miner bt root h => exact ranked_newTree P n miner bt root h
  | graft bt bt' ub miner h _ hg hfresh ih => exact ranked_graft P bt bt' ub miner h ih hg hfresh

theorem ranked_branch (bt : Blocktree) (hranked : Ranked bt) (n : Nat) (tip : Hash)
    (htip : (Block bt tip).isSome = true) (hn : rank bt tip < n) :
    ∃ path, branch bt n tip = some path ∧ path.Nodup ∧ path.length ≤ n ∧
      ∀ d ∈ path, (Block bt d).isSome = true ∧ rank bt d ≤ rank bt tip := by
  induction n generalizing tip with
  | zero => omega
  | succ n ih =>
    by_cases ht : tip = NilHash
    · subst ht
      exact ⟨[], branch_nil bt _, List.nodup_nil, Nat.zero_le _, by simp⟩
    · cases hb : Block bt tip with
      | none => rw [hb] at htip; cases htip
      | some blk =>
        rcases hranked tip blk hb with hp | hp
        · refine ⟨[tip], ?_, List.nodup_singleton tip, by simp, ?_⟩
          · simp only [branch, ht, if_false, hb, hp, branch_nil, Option.map_some']
          · intro d hd
            simp only [List.mem_singleton] at hd
            subst hd
            exact ⟨htip, Nat.le_refl _⟩
        · obtain ⟨rest, hrest, hnd, hlen, hall⟩ := ih blk.previous hp.1 (by omega)
          refine ⟨tip :: rest, ?_, ?_, by simpa using hlen, ?_⟩
          · simp only [branch, ht, if_false, hb, hrest, Option.map_some']
          · rw [List.nodup_cons]
            refine ⟨?_, hnd⟩
            intro hmem
            have := (hall tip hmem).2
            omega
          · intro d hd
            rcases List.mem_cons.mp hd with hd | hd
            · subst hd
              exact ⟨htip, Nat.le_refl _⟩
            · have := hall d hd
              exact ⟨this.1, by omega⟩

/-! ## Acyclicity and termination of the walk -/

/-- C17: in every ledger reachable from `NewTree` by successful `Graft` calls whose sealed
digest is not already a key of the store (whether or not it is the sentinel), the previous
digest of every stored block that is not a root is a key of the store, and for every stored
tip and every fuel not smaller than the number of stored blocks the backward walk reaches
the sentinel: it visits a list of digests that are all keys of the store and pairwise
distinct, no longer than the fuel, and `findUnspentTxs` and `findSpendableOutputs` return. -/
theorem reachable_walk_terminates (P : Primitives) (bt : Blocktree) (hr : Reachable P bt) :
    (∀ d blk, Block bt d = some blk → blk.previous ≠ NilHash →
      blk.previous ∈ mapKeys bt.blocks) ∧
    (∀ tip fuel, (Block bt tip).isSome = true → bt.blocks.length ≤ fuel →
      ∃ path, branch bt fuel tip = some path ∧ path.Nodup ∧ path.length ≤ fuel ∧
        (∀ d ∈ path, d ∈ mapKeys bt.blocks) ∧
        (∀ address, (findUnspentTxs P fuel bt address tip).isSome = true) ∧
        (∀ address amount,
          (findSpendableOutputs P fuel bt address amount tip).isSome = true)) := by
  have hranked := reachable_ranked P bt hr
  constructor
  · intro d blk hb hp
    rcases hranked d blk hb with h1 | h1
    · exact absurd h1 hp
    · exact (isSome_mapGet_iff _ _).mp h1.1
  · intro tip fuel htip hfuel
    have hrank : rank bt tip < fuel := by
      have hmem : tip ∈ mapKeys bt.blocks := (isSome_mapGet_iff _ _).mp htip
      have : rank bt tip < (mapKeys bt.blocks).length := List.indexOf_lt_length.mpr hmem
      simp only [mapKeys, List.length_map] at this
      omega
    obtain ⟨path, hpath, hnd, hlen, hall⟩ := ranked_branch bt hranked fuel tip htip hrank
    refine ⟨path, hpath, hnd, hlen, ?_, ?_, ?_⟩
    · intro d hd
      exact (isSome_mapGet_iff _ _).mp (hall d hd).1
    · intro address
      have hw := walk_isSome_of_branch P bt address fuel tip ([], []) path hpath
      unfold findUnspentTxs
      cases hr : walk P bt address fuel tip ([], []) with
      | none => rw [hr] at hw; cases hw
      | some r => rfl
    · intro address amount
      exact findSpendableOutputs_isSome_of_branch P bt address amount fuel tip path hpath

theorem reachable_walk_terminates_witness :
    (∀ d blk, Block demoLedger1 d = some blk → blk.previous ≠ NilHash →
      blk.previous ∈ mapKeys demoLedger1.blocks) ∧
    (∀ tip fuel, (Block demoLedger1 tip).isSome = true → demoLedger1.blocks.length ≤ fuel →
      ∃ path, branch demoLedger1 fuel tip = some path ∧ path.Nodup ∧ path.length ≤ fuel ∧
        (∀ d ∈ path, d ∈ mapKeys demoLedger1.blocks) ∧
        (∀ address, (findUnspentTxs demo fuel demoLedger1 address tip).isSome = true) ∧
        (∀ address amount,
          (findSpendableOutputs demo fuel demoLedger1 address amount tip).isSome = true)) :=
  reachable_walk_terminates demo demoLedger1
    (Reachable.graft demoLedger0 demoLedger1 demoCandidate "M" 3002
      (Reachable.newTree demoNet "A" demoLedger0 1001 rfl) rfl (by decide))

/-! ## The builder and the resolver on further concrete ledgers -/

/-- C11, evaluated on the concrete ledger: `A` owns the single output of value 10 of the root;
`AddTx` for `A` with the requested values `2^64 - 1` and `1` computes the amount 0 in
`uint64`, succeeds, and stores a transaction without inputs whose outputs sum to `2^64`: the
resolved input value 0 is smaller than the output value. -/
theorem addTx_amount_wraps_around :
    branch demoLedger0 2 1001 = some [1001] ∧
      sumValues demoOverflowOutputs 0 = 0 ∧
      AddTx demo 2 (NewBlock 1001) demoLedger0 "A" demoOverflowOutputs =
        some (⟨[("A", ⟨[], demoOverflowOutputs⟩)], 1001⟩, none) ∧
      inputsValue demo (branchTxs demoLedger0 [1001]) [] = 0 ∧
      totalValue demoOverflowOutputs = 2 ^ 64 ∧
      inputsValue demo (branchTxs demoLedger0 [1001]) [] < totalValue demoOverflowOutputs :=
  ⟨by decide, by decide, by decide, by decide, by decide, by decide⟩

/-- C14, evaluated for the miner "coinbase" with reward 10 and value 4: `AddTx` stores the
expected transaction for the sender "coinbase" in the candidate, but `Graft` sets the reward
transaction under the same key, and the stored block holds the reward transaction only. -/
theorem graft_drops_payment_of_coinbase_miner :
    NewTree demo demoNet "coinbase" = .ok (demoLedgerC, 1001) ∧
      demo.txHash demoCoinbaseC = 7165061454987622232 ∧
      AddTx demo 2 (NewBlock 1001) demoLedgerC "coinbase" [⟨"B", 4⟩] =
        some (demoCandidateC, none) ∧
      mapGet demoCandidateC.Transactions "coinbase" = some demoSpendC ∧
      Graft demo demoLedgerC demoCandidateC "M" =
        .ok (⟨demoLedgerC.blocks ++
            [(2002, ⟨[("coinbase", ⟨[⟨NilHash, 0⟩], [⟨"M", 10⟩]⟩)], 1001, 0⟩)], demoNet⟩,
          2002) ∧
      demoSpendC ∉ [(⟨[⟨NilHash, 0⟩], [⟨"M", 10⟩]⟩ : Transaction)] :=
  ⟨rfl, by decide, by decide, by decide, rfl, by decide⟩

/-- C18, evaluated on the concrete ledger: `A` pays 4 to itself, so its transaction in the tip
block has the two outputs (A, 4) and (A, 6); `findSpendableOutputs` for `A` and amount 20
selects each of the two outputs twice and returns the total 20, while the two distinct
outputs it selected are worth 10. -/
theorem spendable_selects_output_twice :
    AddTx demo 2 (NewBlock 1001) demoLedger0 "A" [⟨"A", 4⟩] =
        some (⟨[("A", demoSelfPay)], 1001⟩, none) ∧
      Graft demo demoLedger0 ⟨[("A", demoSelfPay)], 1001⟩ "M" = .ok (demoLedgerSelf, 3002) ∧
      demo.txHash demoSelfPay = 1077762 ∧
      findUnspentTxs demo 2 demoLedgerSelf "A" 3002 =
        some [demoSelfPay, demoSelfPay, demoCoinbaseA] ∧
      findSpendableOutputs demo 2 demoLedgerSelf "A" 20 3002 =
        some (20, [(1077762, [0, 1, 0, 1])]) ∧
      ¬ (selectionPairs [(1077762, [0, 1, 0, 1])]).Nodup ∧
      (((selectionPairs [(1077762, [0, 1, 0, 1])]).dedup.map (fun p =>
        inputValue demo (branchTxs demoLedgerSelf [3002, 1001]) ⟨p.1, p.2⟩)).sum = 10) :=
  ⟨by decide, rfl, by decide, by decide, by decide, by decide, by decide⟩

/-- C20, evaluated on the concrete candidate: the candidate holds, under the sender key
"coinbase", a transaction that is not a coinbase transaction; `Mint` succeeds and the block it
returns holds the reward transaction only, the transaction of the sender is gone. -/
theorem mint_overwrites_coinbase_sender :
    mapGet demoCandidateC.Transactions "coinbase" = some demoSpendC ∧
      demoSpendC.IsFromCoinbase = false ∧
      Mint demoLedgerC demoCandidateC "M" =
        .ok ⟨[("coinbase", ⟨[⟨NilHash, 0⟩], [⟨"M", 10⟩]⟩)], 1001, 0⟩ ∧
      ("coinbase", demoSpendC) ∉
        [("coinbase", (⟨[⟨NilHash, 0⟩], [⟨"M", 10⟩]⟩ : Transaction))] :=
  ⟨by decide, by decide, rfl, by decide⟩

/-- C15, evaluated on the concrete candidate: the candidate built by `AddTx` for the sender
"coinbase" holds one transaction; `Graft` succeeds and returns the digest 2002, and the block
stored under that digest holds the reward transaction alone. Its transactions are not those
of the candidate plus the reward transaction: the transaction of the candidate is missing. -/
theorem graft_stores_reward_without_sender_entry :
    demoCandidateC.Transactions = [("coinbase", demoSpendC)] ∧
      Graft demo demoLedgerC demoCandidateC "M" =
        .ok (⟨demoLedgerC.blocks ++
            [(2002, ⟨[("coinbase", rewardTx demoLedgerC "M")], 1001, 0⟩)], demoNet⟩, 2002) ∧
      Block ⟨demoLedgerC.blocks ++
          [(2002, ⟨[("coinbase", rewardTx demoLedgerC "M")], 1001, 0⟩)], demoNet⟩ 2002 =
        some ⟨[("coinbase", rewardTx demoLedgerC "M")], 1001, 0⟩ ∧
      (⟨[("coinbase", rewardTx demoLedgerC "M")], 1001, 0⟩ : MintedBlock).transactions ≠
        demoCandidateC.Transactions ++ [("coinbase", rewardTx demoLedgerC "M")] ∧
      ("coinbase", demoSpendC) ∉
        (⟨[("coinbase", rewardTx demoLedgerC "M")], 1001, 0⟩ : MintedBlock).transactions :=
  ⟨rfl, rfl, by decide, by decide, by decide⟩

set_option maxRecDepth 100000 in
/-- C19, evaluated on the concrete ledger: `A` pays with 257 outputs, the first 256 to `B`
and output 256, of value 10, to itself. `findSpendableOutputs` for `A` and amount 5 selects
output 256 and records its index as the 8-bit value 0: the returned pair names output 0 of
the transaction, which belongs to `B`, and `AddTx` builds an input from that pair. -/
theorem spendable_index_truncated :
    AddTx demo 2 (NewBlock 1001) demoLedger0 "A" demoWideOutputs =
        some (⟨[("A", demoWide)], 1001⟩, none) ∧
      Graft demo demoLedger0 ⟨[("A", demoWide)], 1001⟩ "M" = .ok (demoLedgerWide, 3002) ∧
      demoWide.Outputs[256]? = some ⟨"A", 10⟩ ∧
      demoWide.Outputs[0]? = some ⟨"B", 0⟩ ∧
      findSpendableOutputs demo 2 demoLedgerWide "A" 5 3002 =
        some (10, [(demo.txHash demoWide, [0])]) ∧
      ownsOutputAt demo (branchTxs demoLedgerWide [3002, 1001]) "A" (demo.txHash demoWide) 0 =
        false ∧
      AddTx demo 2 (NewBlock 3002) demoLedgerWide "A" [⟨"C", 5⟩] =
        some (⟨[("A", ⟨[⟨demo.txHash demoWide, 0⟩], [⟨"C", 5⟩, ⟨"A", 5⟩]⟩)], 3002⟩, none) :=
  ⟨by decide, rfl, by decide, by decide, by decide, by decide, by decide⟩

/-! ## Supporting facts for the scenarios -/

/-- Reward injection keeps the entry of every sender key other than "coinbase". -/
theorem mint_preserves_other_senders (bt : Blocktree) (ub : UnmintedBlock) (miner : Address)
    (b : MintedBlock) (h : Mint bt ub miner = .ok b) (k : String) (hk : k ≠ "coinbase") :
    mapGet b.transactions k = mapGet ub.Transactions k := by
  obtain ⟨_, hb⟩ := (mintTxs_ok_iff bt ub miner b).mp (mint_ok_mintTxs bt ub miner b h)
  rw [hb]
  exact mapGet_mapSet_other _ _ _ _ (fun heq => hk heq.symm)

/-- The scenario of spending the root reward, for every miner other than "coinbase": with a
reward `R` below `2^64`, a value `0 < v < R`, a root digest and a coinbase transaction hash
that differ from the sentinel, `AddTx` on the ledger of `NewTree` stores for the miner the
transaction with the single input (hash of the root coinbase transaction, 0) and the outputs
`(B, v)`, `(A, R - v)`, and the block `Graft` stores contains that transaction. -/
theorem reward_spend_scenario (P : Primitives) (R difficulty v : Nat) (A B M : Address)
    (hv : 0 < v) (hvR : v < R) (hR : R < U64) (hA : A ≠ "coinbase")
    (hroot : P.blockHash (sealBlock P ⟨R, difficulty⟩
      ⟨[("coinbase", ⟨[⟨NilHash, 0⟩], [⟨A, R⟩]⟩)], NilHash, 0⟩) ≠ NilHash)
    (hcb : P.txHash ⟨[⟨NilHash, 0⟩], [⟨A, R⟩]⟩ ≠ NilHash) :
    ∃ bt r bt' h blk,
      NewTree P ⟨R, difficulty⟩ A = .ok (bt, r) ∧
      AddTx P 1 (NewBlock r) bt A [⟨B, v⟩] =
        some (⟨[(A, ⟨[⟨P.txHash ⟨[⟨NilHash, 0⟩], [⟨A, R⟩]⟩, 0⟩], [⟨B, v⟩, ⟨A, R - v⟩]⟩)], r⟩,
          none) ∧
      Graft P bt
        ⟨[(A, ⟨[⟨P.txHash ⟨[⟨NilHash, 0⟩], [⟨A, R⟩]⟩, 0⟩], [⟨B, v⟩, ⟨A, R - v⟩]⟩)], r⟩ M =
        .ok (bt', h) ∧
      Block bt' h = some blk ∧
      mapGet blk.transactions A =
        some ⟨[⟨P.txHash ⟨[⟨NilHash, 0⟩], [⟨A, R⟩]⟩, 0⟩], [⟨B, v⟩, ⟨A, R - v⟩]⟩ := by
  have hvU : v % U64 = v := Nat.mod_eq_of_lt (by omega)
  have hRU : R % U64 = R := Nat.mod_eq_of_lt hR
  have hnew : NewTree P ⟨R, difficulty⟩ A =
      .ok (⟨[(P.blockHash (sealBlock P ⟨R, difficulty⟩
            ⟨[("coinbase", ⟨[⟨NilHash, 0⟩], [⟨A, R⟩]⟩)], NilHash, 0⟩),
          sealBlock P ⟨R, difficulty⟩
            ⟨[("coinbase", ⟨[⟨NilHash, 0⟩], [⟨A, R⟩]⟩)], NilHash, 0⟩)], ⟨R, difficulty⟩⟩,
        P.blockHash (sealBlock P ⟨R, difficulty⟩
          ⟨[("coinbase", ⟨[⟨NilHash, 0⟩], [⟨A, R⟩]⟩)], NilHash, 0⟩)) := rfl
  generalize hrdef : P.blockHash (sealBlock P ⟨R, difficulty⟩
    ⟨[("coinbase", ⟨[⟨NilHash, 0⟩], [⟨A, R⟩]⟩)], NilHash, 0⟩) = r at hnew hroot
  generalize hcdef : P.txHash ⟨[⟨NilHash, 0⟩], [⟨A, R⟩]⟩ = c at hcb
  have hsel : findSpendableOutputs P 1
      ⟨[(r, sealBlock P ⟨R, difficulty⟩
        ⟨[("coinbase", ⟨[⟨NilHash, 0⟩], [⟨A, R⟩]⟩)], NilHash, 0⟩)], ⟨R, difficulty⟩⟩ A v r =
      some (R, [(c, [0])]) := by
    have hvR' : ¬ R < v := by omega
    simp [findSpendableOutputs, findUnspentTxs, walk, hroot, Block, mapGet, sealBlock, scanTxs,
      scanTx, scanOutputs, isShadowed, indexGet, TxOutput.CanBeUnlocked,
      Transaction.IsFromCoinbase, selectTxs, selectOutputs, mapSet, hcdef, hv, hRU, hvR.le, U8]
  have hadd : AddTx P 1 (NewBlock r)
      ⟨[(r, sealBlock P ⟨R, difficulty⟩
        ⟨[("coinbase", ⟨[⟨NilHash, 0⟩], [⟨A, R⟩]⟩)], NilHash, 0⟩)], ⟨R, difficulty⟩⟩ A
        [⟨B, v⟩] =
      some (⟨[(A, ⟨[⟨c, 0⟩], [⟨B, v⟩, ⟨A, R - v⟩]⟩)], r⟩, none) := by
    have hvR' : ¬ R < v := by omega
    simp [AddTx, sumValues, hvU, NewBlock, hsel, hvR', hvR, makeInputs, mapSet]
  have hmint : Mint
      ⟨[(r, sealBlock P ⟨R, difficulty⟩
        ⟨[("coinbase", ⟨[⟨NilHash, 0⟩], [⟨A, R⟩]⟩)], NilHash, 0⟩)], ⟨R, difficulty⟩⟩
      ⟨[(A, ⟨[⟨c, 0⟩], [⟨B, v⟩, ⟨A, R - v⟩]⟩)], r⟩ M =
      .ok ⟨[(A, ⟨[⟨c, 0⟩], [⟨B, v⟩, ⟨A, R - v⟩]⟩),
        ("coinbase", ⟨[⟨NilHash, 0⟩], [⟨M, R⟩]⟩)], r, 0⟩ := by
    simp [Mint, hroot, Block, mapGet, mintTxs, hasCoinbase, mapKeys,
      Transaction.IsFromCoinbase, hcb, AddRewardTx, mapSet, hA, rewardTx]
  refine ⟨_, _, _, _,
    sealBlock P ⟨R, difficulty⟩ ⟨[(A, ⟨[⟨c, 0⟩], [⟨B, v⟩, ⟨A, R - v⟩]⟩),
      ("coinbase", ⟨[⟨NilHash, 0⟩], [⟨M, R⟩]⟩)], r, 0⟩,
    hnew, hadd, graft_of_mint P _ _ M _ hmint, ?_, ?_⟩
  · simp only [Block]
    exact mapGet_mapSet_same _ _ _
  · simp [sealBlock, mapGet]

theorem reward_spend_scenario_witness :
    ∃ bt r bt' h blk,
      NewTree demo ⟨10, 0⟩ "A" = .ok (bt, r) ∧
      AddTx demo 1 (NewBlock r) bt "A" [⟨"B", 4⟩] =
        some (⟨[("A", ⟨[⟨demo.txHash ⟨[⟨NilHash, 0⟩], [⟨"A", 10⟩]⟩, 0⟩],
          [⟨"B", 4⟩, ⟨"A", 10 - 4⟩]⟩)], r⟩, none) ∧
      Graft demo bt
        ⟨[("A", ⟨[⟨demo.txHash ⟨[⟨NilHash, 0⟩], [⟨"A", 10⟩]⟩, 0⟩],
          [⟨"B", 4⟩, ⟨"A", 10 - 4⟩]⟩)], r⟩ "M" = .ok (bt', h) ∧
      Block bt' h = some blk ∧
      mapGet blk.transactions "A" =
        some ⟨[⟨demo.txHash ⟨[⟨NilHash, 0⟩], [⟨"A", 10⟩]⟩, 0⟩], [⟨"B", 4⟩, ⟨"A", 10 - 4⟩]⟩ :=
  reward_spend_scenario demo 10 0 4 "A" "B" "M" (by decide) (by decide) (by decide)
    (by decide) (by decide) (by decide)

end Broccoli
